import Mathlib

/-!
# Verification of the folders-synchronization engine

A shallow embedding of `src/main.py`: a one-way folder mirroring tool.
Paths are modelled as lists of components (the `parts` of a
`pathlib.PurePath`), the filesystem as an association list from paths to
nodes (regular files carrying their byte content, or directories), and
each Python function of the engine as a Lean function over that state.
Filesystem mutations are threaded explicitly; every logging call is
recorded as an event in an output trace, and every caught `OSError` of
the original code is represented by the corresponding error event.
-/

namespace FolderSync

/-- A filesystem path as its list of components, in the sense of
`pathlib.PurePath(...).parts`. -/
abbrev Path := List String

/-- A filesystem node: a regular file with its byte content, or a
directory.  Directory membership is recorded by the keys of the
filesystem map, not inside the node. -/
inductive Node where
  | file (content : List Nat)
  | dir
deriving DecidableEq

/-- The filesystem: an association list from absolute paths (component
lists) to nodes. -/
abbrev FS := List (Path × Node)

/-- Look up the node stored at a path (first match). -/
def findP : FS → Path → Option Node
  | [], _ => none
  | (q, n) :: t, p => if q = p then some n else findP t p

/-- Remove every entry stored at a path. -/
def eraseP (fs : FS) (p : Path) : FS := fs.filter (fun e => decide (e.1 ≠ p))

/-- Store a node at a path, overwriting any previous entry. -/
def setP (fs : FS) (p : Path) (n : Node) : FS := (p, n) :: eraseP fs p

/-- The list of keys of the filesystem. -/
def keysOf (fs : FS) : List Path := fs.map (·.1)

/-- The immediate children of a directory path present in the
filesystem, as full paths: models `os.listdir` / `Path.iterdir`
membership. -/
def childrenOf (fs : FS) (p : Path) : List Path :=
  (fs.filter (fun e => decide (e.1 ≠ [] ∧ e.1.dropLast = p))).map (·.1)

/-- The largest key length in the filesystem (used to bound the
recursion depth of the destination walk). -/
def maxKeyLen (fs : FS) : Nat := fs.foldr (fun e m => max e.1.length m) 0

/-- `os.path.exists`. -/
def existsB (fs : FS) (p : Path) : Bool := (findP fs p).isSome

/-- `os.path.isfile`. -/
def isfileB (fs : FS) (p : Path) : Bool :=
  match findP fs p with
  | some (.file _) => true
  | _ => false

/-- The path mapping used throughout `main.py`: take the `parts` of a
path, overwrite the first component with the other root, and re-join
(`source_path[0] = source_folder` followed by `Path(*source_path)`).
Re-parsing splits a multi-component root back into its components, so
the net effect is `root ++ p.tail`. -/
def replaceHead (root : Path) (p : Path) : Path := root ++ p.tail

/-! ## Content fingerprinting (`get_hash`)

`get_hash` feeds the file to `hashlib.new("sha256")` in 4096-byte
chunks and returns `hexdigest()`.  The SHA-256 compression function of
`hashlib` is modelled arithmetically below (32-bit words as `Nat` with
explicit `% 2^32`); the incremental `update` state is the list of bytes
fed so far, reflecting that `update(a); update(b)` hashes the
concatenation. -/

/-- Truncate to a 32-bit word. -/
def w32 (n : Nat) : Nat := n % 4294967296

/-- Bit `i` of a natural number. -/
def bitAt (x i : Nat) : Nat := x / 2 ^ i % 2

/-- Combine two 32-bit words bit by bit with `f`. -/
def bitop32 (f : Nat → Nat → Nat) (x y : Nat) : Nat :=
  (List.range 32).foldl (fun a i => a + 2 ^ i * f (bitAt x i) (bitAt y i)) 0

/-- Bitwise and on 32-bit words. -/
def and32 : Nat → Nat → Nat := bitop32 (fun a b => a * b)

/-- Bitwise exclusive or on 32-bit words. -/
def xor32 : Nat → Nat → Nat := bitop32 (fun a b => (a + b) % 2)

/-- Bitwise complement on a 32-bit word. -/
def not32 (x : Nat) : Nat := 4294967295 - w32 x

/-- Right rotation of a 32-bit word. -/
def rotr32 (k x : Nat) : Nat := w32 x / 2 ^ k + w32 x % 2 ^ k * 2 ^ (32 - k)

/-- Logical right shift of a 32-bit word. -/
def shr32 (k x : Nat) : Nat := w32 x / 2 ^ k

def bigS0 (x : Nat) : Nat := xor32 (rotr32 2 x) (xor32 (rotr32 13 x) (rotr32 22 x))
def bigS1 (x : Nat) : Nat := xor32 (rotr32 6 x) (xor32 (rotr32 11 x) (rotr32 25 x))
def smallS0 (x : Nat) : Nat := xor32 (rotr32 7 x) (xor32 (rotr32 18 x) (shr32 3 x))
def smallS1 (x : Nat) : Nat := xor32 (rotr32 17 x) (xor32 (rotr32 19 x) (shr32 10 x))
def chF (x y z : Nat) : Nat := xor32 (and32 x y) (and32 (not32 x) z)
def majF (x y z : Nat) : Nat := xor32 (and32 x y) (xor32 (and32 x z) (and32 y z))

/-- The SHA-256 round constants. -/
def K256 : List Nat :=
  [1116352408, 1899447441, 3049323471, 3921009573, 961987163, 1508970993,
   2453635748, 2870763221, 3624381080, 310598401, 607225278, 1426881987,
   1925078388, 2162078206, 2614888103, 3248222580, 3835390401, 4022224774,
   264347078, 604807628, 770255983, 1249150122, 1555081692, 1996064986,
   2554220882, 2821834349, 2952996808, 3210313671, 3336571891, 3584528711,
   113926993, 338241895, 666307205, 773529912, 1294757372, 1396182291,
   1695183700, 1986661051, 2177026350, 2456956037, 2730485921, 2820302411,
   3259730800, 3345764771, 3516065817, 3600352804, 4094571909, 275423344,
   430227734, 506948616, 659060556, 883997877, 958139571, 1322822218,
   1537002063, 1747873779, 1955562222, 2024104815, 2227730452, 2361852424,
   2428436474, 2756734187, 3204031479, 3329325298]

/-- The SHA-256 initial hash value. -/
def H256 : List Nat :=
  [1779033703, 3144134277, 1013904242, 2773480762,
   1359893119, 2600822924, 528734635, 1541459225]

/-- Split a list into consecutive chunks of size `n` (the last chunk may
be shorter); models the `fh.read(4096)` loop and the 64-byte block
split. -/
def chunkList (n : Nat) : List α → List (List α)
  | [] => []
  | a :: as => (a :: as.take (n - 1)) :: chunkList n (as.drop (n - 1))
termination_by l => l.length
decreasing_by
  simp only [List.length_cons, List.length_drop]
  omega

/-- Assemble big-endian bytes into a word. -/
def bytesToWord (bs : List Nat) : Nat := bs.foldl (fun a b => a * 256 + b % 256) 0

/-- SHA-256 padding: `0x80`, zeros, and the 64-bit big-endian bit
length. -/
def padMsg (m : List Nat) : List Nat :=
  let L := m.length
  let k := (64 - (L + 9) % 64) % 64
  m ++ 128 :: (List.replicate k 0 ++ (List.range 8).map (fun i => 8 * L / 2 ^ (8 * (7 - i)) % 256))

/-- Extend the 16 block words to the 64-entry message schedule. -/
def msgSchedule (ws : List Nat) : List Nat :=
  (List.range 48).foldl
    (fun acc _ =>
      acc ++ [w32 (smallS1 (acc.getD (acc.length - 2) 0) + acc.getD (acc.length - 7) 0 +
                   smallS0 (acc.getD (acc.length - 15) 0) + acc.getD (acc.length - 16) 0)])
    ws

/-- One SHA-256 compression of a 64-byte block into the running hash
state. -/
def compressBlock (H : List Nat) (block : List Nat) : List Nat :=
  let W := msgSchedule ((chunkList 4 block).map bytesToWord)
  let st := (List.range 64).foldl
    (fun st i =>
      match st with
      | [a, b, c, d, e, f, g, h] =>
        let T1 := w32 (h + bigS1 e + chF e f g + K256.getD i 0 + W.getD i 0)
        let T2 := w32 (bigS0 a + majF a b c)
        [w32 (T1 + T2), a, b, c, w32 (d + T1), e, f, g]
      | other => other)
    H
  (H.zip st).map (fun x => w32 (x.1 + x.2))

/-- The SHA-256 digest of a byte list, as eight 32-bit words. -/
def sha256 (m : List Nat) : List Nat :=
  (chunkList 64 (padMsg m)).foldl compressBlock H256

/-- The four big-endian bytes of a 32-bit word. -/
def wordBytes (w : Nat) : List Nat :=
  [w / 2 ^ 24 % 256, w / 2 ^ 16 % 256, w / 2 ^ 8 % 256, w % 256]

/-- A hexadecimal digit character, lowercase for `10`–`15`. -/
def hexChar (n : Nat) : Char :=
  if n < 10 then Char.ofNat (48 + n) else Char.ofNat (87 + n)

/-- The two hexadecimal characters of one byte. -/
def byteHex (b : Nat) : List Char := [hexChar (b / 16 % 16), hexChar (b % 16)]

/-- `hexdigest()`: the bytes rendered as a lowercase hexadecimal
string. -/
def hexOfBytes (bs : List Nat) : String := String.mk (bs.map byteHex).flatten

/-- The fingerprint of a byte content: SHA-256, hex encoded. -/
def fileHash (c : List Nat) : String := hexOfBytes ((sha256 c).map wordBytes).flatten

/-- The sixteen characters a fingerprint may contain. -/
def hexAlphabet : List Char :=
  (List.range 10).map (fun n => Char.ofNat (48 + n)) ++
    (List.range 6).map (fun n => Char.ofNat (97 + n))

/-- The digest string obtained by feeding a byte content to the running
hash in 4096-byte chunks (the state of `hashlib` after `update(x)` calls
is the hash of the concatenation of the `x`s). -/
def contentHash (c : List Nat) : String :=
  fileHash ((chunkList 4096 c).foldl (fun st chunk => st ++ chunk) [])

/-- `get_hash`: open the file at `p`, feed it to the digest in
4096-byte chunks until the read returns empty, and return the
hexadecimal digest.  A missing file or a directory raises
(`FileNotFoundError` / `IsADirectoryError`), modelled as `none`. -/
def get_hash (fs : FS) (p : Path) : Option String :=
  match findP fs p with
  | some (.file c) => some (contentHash c)
  | _ => none

/-! ## Logging events

One constructor per `logger.info` / `logger.error` call site of
`main.py`, plus the sleep of the scheduler loop.  The trace of a run is
the list of these events in emission order. -/

inductive Event where
  /-- `File will be removed: {item}` (orphan pass). -/
  | removeFileLog (p : Path)
  /-- `Empty folder will be removed: {item}` (orphan pass). -/
  | removeDirLog (p : Path)
  /-- `Error processing {dest_folder}` (orphan-pass `except`). -/
  | errorDir (p : Path)
  /-- `Path will be created: {dest_path}` (`process_file`). -/
  | pathCreateLog (p : Path)
  /-- `File will be created: {full_dest_path}` (`process_file`). -/
  | fileCreateLog (p : Path)
  /-- `File will be updated: {full_dest_path}` (`process_file`). -/
  | fileUpdateLog (p : Path)
  /-- `Empty folder will be created: {dest_path}` (`process_empty_folder`). -/
  | dirCreateLog (p : Path)
  /-- `Error processing file {item}` (`process_file` `except`). -/
  | errorFile (p : Path)
  /-- `Error processing empty folder {item}` (`process_empty_folder` `except`). -/
  | errorEmptyDir (p : Path)
  /-- `Error processing {item}` (`process_source_items` loop `except`). -/
  | errorItem (p : Path)
  /-- `Sleeping for {interval} seconds` followed by `time.sleep(interval)`. -/
  | sleepLog (interval : Rat)
deriving DecidableEq

/-! ## Filesystem operations

Each operation returns `none` where the Python call raises an
`OSError` (the only exception family these calls raise).  Deleting
operations take a read-only oracle `ro`: a path on which the operating
system denies removal raises `PermissionError`, which is also an
`OSError`. -/

/-- `os.remove`: unlink a regular file. -/
def osRemove (ro : Path → Bool) (fs : FS) (p : Path) : Option FS :=
  match findP fs p with
  | some (.file _) => if ro p then none else some (eraseP fs p)
  | _ => none

/-- `os.rmdir`: remove an empty directory. -/
def osRmdir (ro : Path → Bool) (fs : FS) (p : Path) : Option FS :=
  match findP fs p with
  | some .dir =>
      if ro p then none
      else if childrenOf fs p = [] then some (eraseP fs p) else none
  | _ => none

/-- `os.listdir` / `Path.iterdir`: the children of a directory;
raises on a missing path or a regular file. -/
def osListdir (fs : FS) (p : Path) : Option (List Path) :=
  match findP fs p with
  | some .dir => some (childrenOf fs p)
  | _ => none

/-- The non-empty proper-and-full leading segments of a path, shortest
first. -/
def leadSegs (p : Path) : List Path := (List.range p.length).map (fun i => p.take (i + 1))

/-- The recursion of `os.makedirs` over the leading segments, shortest
first: an existing directory is kept, a missing one is created, and a
segment that exists as a regular file raises. -/
def mkdirsGo (g : FS) : List Path → Option FS
  | [] => some g
  | q :: qs =>
    match findP g q with
    | some .dir => mkdirsGo g qs
    | some (.file _) => none
    | none => mkdirsGo (setP g q .dir) qs

/-- `os.makedirs`: create the directory and every missing ancestor.
Raises when some segment exists as a regular file; in that case the
segments below it already existed, so nothing has been created yet and
failure leaves the filesystem unchanged. -/
def osMakedirs (fs : FS) (p : Path) : Option FS := mkdirsGo fs (leadSegs p)

/-- `shutil.copy(src, dst)`: copy the file content of `src` to `dst`;
when `dst` is a directory the target is `dst/basename(src)`, when it is
an existing file it is overwritten, otherwise the file is created at
`dst` provided its parent directory exists.  Raises (`none`) when `src`
is not a regular file or the target cannot be written. -/
def shutilCopy (fs : FS) (src dst : Path) : Option FS :=
  match findP fs src with
  | some (.file c) =>
      match findP fs dst with
      | some .dir =>
          let t := dst ++ [src.getLastD ""]
          match findP fs t with
          | some .dir => none
          | _ => some (setP fs t (.file c))
      | some (.file _) => some (setP fs dst (.file c))
      | none =>
          match findP fs dst.dropLast with
          | some .dir => some (setP fs dst (.file c))
          | _ => none
  | _ => none

/-! ## Orphan pass: `synchronize_destination_folder`

Walks the destination tree; removes a regular file, or an empty
directory, whose counterpart path (first component replaced by the
source root) does not exist; recurses into non-empty directories.  Its
single `try` wraps the whole loop of one directory level, so the first
`OSError` at a level is logged and abandons the remaining entries of
that level, while errors inside a recursive call are caught by that
call's own handler. -/

/-- One directory level of the orphan pass: iterate over the snapshot
`items` of the children, threading the filesystem; `recurse` is the
self-call on a non-empty subdirectory. -/
def syncChildLoop (ro : Path → Bool) (src : Path)
    (recurse : FS → Path → FS × List Event) (folder : Path) :
    FS → List Path → FS × List Event
  | fs, [] => (fs, [])
  | fs, item :: rest =>
    if isfileB fs item then
      if existsB fs (replaceHead src item) then
        syncChildLoop ro src recurse folder fs rest
      else
        match osRemove ro fs item with
        | some fs1 =>
            let r := syncChildLoop ro src recurse folder fs1 rest
            (r.1, .removeFileLog item :: r.2)
        | none => (fs, [.removeFileLog item, .errorDir folder])
    else
      match osListdir fs item with
      | none => (fs, [.errorDir folder])
      | some cs =>
        if cs.isEmpty then
          if existsB fs (replaceHead src item) then
            syncChildLoop ro src recurse folder fs rest
          else
            match osRmdir ro fs item with
            | some fs1 =>
                let r := syncChildLoop ro src recurse folder fs1 rest
                (r.1, .removeDirLog item :: r.2)
            | none => (fs, [.removeDirLog item, .errorDir folder])
        else
          let r := recurse fs item
          let r2 := syncChildLoop ro src recurse folder r.1 rest
          (r2.1, r.2 ++ r2.2)

/-- The recursive body of `synchronize_destination_folder`, with a fuel
bound on the recursion depth (the Python recursion is bounded by the
tree depth; the wrapper below supplies enough fuel for any input). -/
def syncDestAux (ro : Path → Bool) (src : Path) : Nat → FS → Path → FS × List Event
  | 0, fs, _ => (fs, [])
  | fuel + 1, fs, folder =>
    match osListdir fs folder with
    | none => (fs, [.errorDir folder])
    | some items => syncChildLoop ro src (syncDestAux ro src fuel) folder fs items

/-- `synchronize_destination_folder(source_folder, dest_folder)`. -/
def synchronize_destination_folder (ro : Path → Bool) (src dst : Path) (fs : FS) :
    FS × List Event :=
  syncDestAux ro src (maxKeyLen fs + 1) fs dst

/-! ## Forward pass: `process_file`, `process_empty_folder`,
`process_source_items` -/

/-- `process_file(item, dest_folder)`: hash the source file, compute
the destination directory by replacing the first component of the
parent parts with `dest_folder`, create missing directories, then copy
the file when absent, or delete and re-copy it when the fingerprints
differ.  Every `OSError` is caught by the function's own handler. -/
def process_file (ro : Path → Bool) (dst : Path) (fs : FS) (item : Path) :
    FS × List Event :=
  match get_hash fs item with
  | none => (fs, [.errorFile item])
  | some h =>
    let dest_path := dst ++ item.dropLast.tail
    let f := item.getLastD ""
    let full_dest_path := dest_path ++ [f]
    let afterDirs : FS → List Event → FS × List Event := fun g ev =>
      if existsB g full_dest_path then
        match get_hash g full_dest_path with
        | none => (g, ev ++ [.errorFile item])
        | some h2 =>
          if h ≠ h2 then
            match osRemove ro g full_dest_path with
            | some g1 =>
                match shutilCopy g1 item dest_path with
                | some g2 => (g2, ev ++ [.fileUpdateLog full_dest_path])
                | none => (g1, ev ++ [.fileUpdateLog full_dest_path, .errorFile item])
            | none => (g, ev ++ [.fileUpdateLog full_dest_path, .errorFile item])
          else (g, ev)
      else
        match shutilCopy g item dest_path with
        | some g2 => (g2, ev ++ [.fileCreateLog full_dest_path])
        | none => (g, ev ++ [.fileCreateLog full_dest_path, .errorFile item])
    if existsB fs dest_path then afterDirs fs []
    else
      match osMakedirs fs dest_path with
      | some fs1 => afterDirs fs1 [.pathCreateLog dest_path]
      | none => (fs, [.pathCreateLog dest_path, .errorFile item])

/-- `process_empty_folder(item, dest_folder)`: create the counterpart
directory when absent. -/
def process_empty_folder (dst : Path) (fs : FS) (item : Path) : FS × List Event :=
  let dest_path := replaceHead dst item
  if existsB fs dest_path then (fs, [])
  else
    match osMakedirs fs dest_path with
    | some fs1 => (fs1, [.dirCreateLog dest_path])
    | none => (fs, [.dirCreateLog dest_path, .errorEmptyDir item])

/-- The items yielded by `Path(source_folder).rglob("*")`: every key
strictly below the source root (the sibling order of the walk is
unspecified in the contract; the model uses the map order). -/
def rglobList (fs : FS) (src : Path) : List Path :=
  (keysOf fs).filter (fun p => decide (p ≠ src ∧ p.take src.length = src))

/-- The loop body of `process_source_items` over an item list: files go
to `process_file`, empty directories to `process_empty_folder`; the
per-iteration `try` catches `os.listdir` errors and continues with the
next item. -/
def processItemsFrom (ro : Path → Bool) (dst : Path) :
    FS → List Path → FS × List Event
  | fs, [] => (fs, [])
  | fs, item :: rest =>
    let r :=
      if isfileB fs item then process_file ro dst fs item
      else
        match osListdir fs item with
        | none => (fs, [.errorItem item])
        | some cs => if cs.isEmpty then process_empty_folder dst fs item else (fs, [])
    let r2 := processItemsFrom ro dst r.1 rest
    (r2.1, r.2 ++ r2.2)

/-- `process_source_items(source_folder, dest_folder)`. -/
def process_source_items (ro : Path → Bool) (src dst : Path) (fs : FS) :
    FS × List Event :=
  processItemsFrom ro dst fs (rglobList fs src)

/-- `perform_synchronization`: one cycle, the orphan pass followed by
the forward pass.  Both passes catch every `OSError` internally, so the
modelled cycle always returns. -/
def perform_synchronization (ro : Path → Bool) (src dst : Path) (fs : FS) :
    FS × List Event :=
  let r1 := synchronize_destination_folder ro src dst fs
  let r2 := process_source_items ro src dst r1.1
  (r2.1, r1.2 ++ r2.2)

/-- The filesystem after one cycle. -/
def cycleFS (ro : Path → Bool) (src dst : Path) (fs : FS) : FS :=
  (perform_synchronization ro src dst fs).1

/-- The filesystem after `n` cycles. -/
def iterCycle (ro : Path → Bool) (src dst : Path) : Nat → FS → FS
  | 0, fs => fs
  | n + 1, fs => iterCycle ro src dst n (cycleFS ro src dst fs)

/-- The scheduler loop of `main`: `amount` iterations, each performing
one synchronization, logging the sleep notice and suspending for
`interval` seconds. -/
def runCycles (ro : Path → Bool) (src dst : Path) (interval : Rat) :
    Nat → FS → FS × List Event
  | 0, fs => (fs, [])
  | n + 1, fs =>
    let r := perform_synchronization ro src dst fs
    let r2 := runCycles ro src dst interval n r.1
    (r2.1, r.2 ++ .sleepLog interval :: r2.2)

/-! ## Failure-injected copy (`process_file` update branch)

`shutil.copy` opens the destination for writing and copies the content
in chunks, so an I/O failure partway through leaves a truncated file at
the final destination path, and a failure at open (for example
permission denied) leaves nothing.  The update branch of `process_file`
runs `os.remove(full_dest_path)` and then `shutil.copy`, with no
temporary file.  The definitions below replay those lines with an
injected copy outcome. -/

inductive CopyOutcome where
  /-- The copy completes. -/
  | ok
  /-- Opening the destination for writing fails; no file is created. -/
  | failOpen
  /-- The write fails after `k` bytes; the truncated file remains. -/
  | failAfter (k : Nat)
deriving DecidableEq

/-- `shutil.copy(srcP, dstDir)` into an existing directory, with an
injected outcome; returns the filesystem and whether an exception was
raised. -/
def shutilCopyCrash (fs : FS) (srcP dstDir : Path) (oc : CopyOutcome) : FS × Bool :=
  match findP fs srcP with
  | some (.file c) =>
      let t := dstDir ++ [srcP.getLastD ""]
      match oc with
      | .ok => (setP fs t (.file c), false)
      | .failOpen => (fs, true)
      | .failAfter k => (setP fs t (.file (c.take k)), true)
  | _ => (fs, true)

/-- Lines 141–142 of `main.py` (the fingerprint-mismatch update):
`os.remove(full_dest_path)` then `shutil.copy(item, dest_path)`, with an
injected copy outcome. -/
def replaceFileStep (fs : FS) (item dest_path full_dest_path : Path)
    (oc : CopyOutcome) : FS × Bool :=
  match osRemove (fun _ => false) fs full_dest_path with
  | some fs1 => shutilCopyCrash fs1 item dest_path oc
  | none => (fs, true)

/-- The read-only oracle of a healthy filesystem: nothing is
protected. -/
def noRO : Path → Bool := fun _ => false

/-! ## Structural predicates -/

/-- `q` is a leading segment of `p` (`p` lies in the subtree rooted at
`q`, or equals it). -/
def under (q p : Path) : Prop := p.take q.length = q

instance (q p : Path) : Decidable (under q p) := by unfold under; infer_instance

/-- `p` lies strictly below `q`. -/
def sunder (q p : Path) : Prop := under q p ∧ q.length < p.length

instance (q p : Path) : Decidable (sunder q p) := by unfold sunder; infer_instance

/-- A well-formed filesystem snapshot: keys are unique and non-empty,
and the parent of every non-root entry is present as a directory. -/
def WF (fs : FS) : Prop :=
  (keysOf fs).Nodup ∧
    ∀ e ∈ fs, e.1 ≠ [] ∧ (2 ≤ e.1.length → findP fs e.1.dropLast = some .dir)

instance (fs : FS) : Decidable (WF fs) := by unfold WF; infer_instance

/-- Kind compatibility between a node and an optional counterpart node:
not a file facing a directory nor a directory facing a file. -/
def compatB : Node → Option Node → Bool
  | .file _, some .dir => false
  | .dir, some (.file _) => false
  | _, _ => true

/-- No relative path is a regular file in one of the two trees and a
directory in the other. -/
def conflictFree (fs : FS) (s d : String) : Prop :=
  ∀ e ∈ fs,
    (e.1.head? = some s → compatB e.2 (findP fs (d :: e.1.tail)) = true) ∧
    (e.1.head? = some d → compatB e.2 (findP fs (s :: e.1.tail)) = true)

instance (fs : FS) (s d : String) : Decidable (conflictFree fs s d) := by
  unfold conflictFree; infer_instance

/-- The orphan-pass removal condition at a path: a regular file, or a
childless directory, whose counterpart under the source root does not
exist. -/
def orphRem (src : Path) (fs : FS) (p : Path) : Prop :=
  (isfileB fs p = true ∨ (findP fs p = some .dir ∧ childrenOf fs p = [])) ∧
    existsB fs (replaceHead src p) = false

instance (src : Path) (fs : FS) (p : Path) : Decidable (orphRem src fs p) := by
  unfold orphRem; infer_instance

/-! ## Association-list and path lemmas -/

theorem findP_mem {fs : FS} {p : Path} {n : Node} (h : findP fs p = some n) :
    (p, n) ∈ fs := by
  induction fs with
  | nil => simp [findP] at h
  | cons e t ih =>
    obtain ⟨q, m⟩ := e
    simp only [findP] at h
    by_cases hq : q = p
    · subst hq
      have hm : m = n := by simpa using h
      subst hm
      exact List.mem_cons_self _ _
    · simp only [if_neg hq] at h
      exact List.mem_cons_of_mem _ (ih h)

theorem mem_keysOf_iff {fs : FS} {p : Path} : p ∈ keysOf fs ↔ ∃ n, (p, n) ∈ fs := by
  simp only [keysOf, List.mem_map]
  constructor
  · rintro ⟨⟨q, n⟩, hm, rfl⟩
    exact ⟨n, hm⟩
  · rintro ⟨n, hm⟩
    exact ⟨(p, n), hm, rfl⟩

theorem findP_ne_none_iff {fs : FS} {p : Path} :
    findP fs p ≠ none ↔ p ∈ keysOf fs := by
  induction fs with
  | nil => simp [findP, keysOf]
  | cons e t ih =>
    obtain ⟨q, m⟩ := e
    simp only [findP, keysOf, List.map_cons, List.mem_cons]
    by_cases hq : q = p
    · subst hq
      simp only [if_pos rfl]
      constructor
      · intro _
        left
        trivial
      · intro _
        exact Option.some_ne_none m
    · simp only [if_neg hq]
      rw [ih]
      constructor
      · exact fun h => Or.inr h
      · rintro (h | h)
        · exact absurd h.symm hq
        · exact h

theorem findP_eq_none_iff {fs : FS} {p : Path} :
    findP fs p = none ↔ p ∉ keysOf fs := by
  rw [← findP_ne_none_iff]; tauto

theorem findP_of_mem_nodup {fs : FS} {p : Path} {n : Node}
    (hn : (keysOf fs).Nodup) (h : (p, n) ∈ fs) : findP fs p = some n := by
  induction fs with
  | nil => simp at h
  | cons e t ih =>
    obtain ⟨q, m⟩ := e
    simp only [keysOf, List.map_cons, List.nodup_cons] at hn
    rcases List.mem_cons.mp h with h1 | h1
    · rw [Prod.mk.injEq] at h1
      obtain ⟨h1a, h1b⟩ := h1
      subst h1a; subst h1b
      simp [findP]
    · have hqp : q ≠ p := by
        intro hqp; subst hqp
        exact hn.1 (List.mem_map.mpr ⟨(q, n), h1, rfl⟩)
      simp only [findP, if_neg hqp]
      exact ih hn.2 h1

theorem mem_eraseP_iff {fs : FS} {p : Path} {e : Path × Node} :
    e ∈ eraseP fs p ↔ e ∈ fs ∧ e.1 ≠ p := by
  simp [eraseP, List.mem_filter]

theorem mem_setP_iff {fs : FS} {p : Path} {n : Node} {e : Path × Node} :
    e ∈ setP fs p n ↔ e = (p, n) ∨ (e ∈ fs ∧ e.1 ≠ p) := by
  simp [setP, mem_eraseP_iff]

theorem eraseP_cons (a : Path) (m : Node) (t : FS) (p : Path) :
    eraseP ((a, m) :: t) p = if a = p then eraseP t p else (a, m) :: eraseP t p := by
  simp only [eraseP, List.filter_cons]
  by_cases h : a = p
  · simp [h]
  · simp [h]

theorem findP_eraseP (fs : FS) (p q : Path) :
    findP (eraseP fs p) q = if q = p then none else findP fs q := by
  induction fs with
  | nil =>
    simp only [eraseP, List.filter_nil, findP]
    split <;> rfl
  | cons e t ih =>
    obtain ⟨a, m⟩ := e
    rw [eraseP_cons]
    by_cases hap : a = p
    · rw [if_pos hap, ih]
      subst hap
      by_cases hq : q = a
      · simp [hq]
      · rw [if_neg hq, if_neg hq]
        simp only [findP]
        rw [if_neg (fun h => hq h.symm)]
    · rw [if_neg hap]
      simp only [findP]
      by_cases haq : a = q
      · subst haq
        simp [hap]
      · rw [if_neg haq, if_neg haq, ih]

theorem findP_setP (fs : FS) (p : Path) (n : Node) (q : Path) :
    findP (setP fs p n) q = if q = p then some n else findP fs q := by
  simp only [setP, findP]
  rw [findP_eraseP]
  by_cases hq : q = p
  · subst hq; simp
  · rw [if_neg (fun h => hq h.symm), if_neg hq, if_neg hq]

theorem keysOf_eraseP_sublist (fs : FS) (p : Path) :
    (keysOf (eraseP fs p)).Sublist (keysOf fs) :=
  List.Sublist.map _ (List.filter_sublist _)

theorem keysOf_eraseP_nodup {fs : FS} (h : (keysOf fs).Nodup) (p : Path) :
    (keysOf (eraseP fs p)).Nodup :=
  h.sublist (keysOf_eraseP_sublist fs p)

theorem keysOf_setP_nodup {fs : FS} (h : (keysOf fs).Nodup) (p : Path) (n : Node) :
    (keysOf (setP fs p n)).Nodup := by
  simp only [setP, keysOf, List.map_cons, List.nodup_cons]
  refine ⟨?_, keysOf_eraseP_nodup h p⟩
  intro hp
  rcases List.mem_map.mp hp with ⟨e, he, hfst⟩
  exact (mem_eraseP_iff.mp he).2 hfst

theorem mem_childrenOf_iff {fs : FS} {p q : Path} :
    q ∈ childrenOf fs p ↔ q ∈ keysOf fs ∧ q ≠ [] ∧ q.dropLast = p := by
  simp only [childrenOf, List.mem_map, List.mem_filter]
  constructor
  · rintro ⟨e, ⟨he, hcond⟩, rfl⟩
    rw [decide_eq_true_eq] at hcond
    exact ⟨mem_keysOf_iff.mpr ⟨e.2, by simpa using he⟩, hcond⟩
  · rintro ⟨hk, hcond⟩
    rcases mem_keysOf_iff.mp hk with ⟨n, hm⟩
    exact ⟨(q, n), ⟨hm, decide_eq_true_eq.mpr hcond⟩, rfl⟩

theorem childrenOf_eq_nil_iff {fs : FS} {p : Path} :
    childrenOf fs p = [] ↔ ∀ q, q ∈ keysOf fs → q ≠ [] → q.dropLast ≠ p := by
  rw [List.eq_nil_iff_forall_not_mem]
  constructor
  · intro h q hk hne hd
    exact h q (mem_childrenOf_iff.mpr ⟨hk, hne, hd⟩)
  · intro h q hq
    rcases mem_childrenOf_iff.mp hq with ⟨hk, hne, hd⟩
    exact h q hk hne hd

theorem child_shape {p q : Path} : (q ≠ [] ∧ q.dropLast = p) ↔ ∃ a, q = p ++ [a] := by
  constructor
  · rintro ⟨hne, rfl⟩
    exact ⟨q.getLast hne, (List.dropLast_append_getLast hne).symm⟩
  · rintro ⟨a, rfl⟩
    simp

theorem mem_keysOf_maxKeyLen {fs : FS} {q : Path} (h : q ∈ keysOf fs) :
    q.length ≤ maxKeyLen fs := by
  induction fs with
  | nil => simp [keysOf] at h
  | cons e t ih =>
    simp only [keysOf, List.map_cons, List.mem_cons] at h
    simp only [maxKeyLen, List.foldr_cons]
    rcases h with h | h
    · subst h; exact Nat.le_max_left _ _
    · exact le_trans (ih h) (Nat.le_max_right _ _)

/-! ## `under` and `sunder` lemmas -/

theorem under_iff {q p : Path} : under q p ↔ ∃ r, p = q ++ r := by
  constructor
  · intro h
    refine ⟨p.drop q.length, ?_⟩
    conv_lhs => rw [← List.take_append_drop q.length p]
    rw [h]
  · rintro ⟨r, rfl⟩
    exact List.take_left q r

theorem under_refl (p : Path) : under p p := by simp [under]

theorem under_append (q r : Path) : under q (q ++ r) := List.take_left q r

theorem under_len {q p : Path} (h : under q p) : q.length ≤ p.length := by
  rcases under_iff.mp h with ⟨r, rfl⟩
  simp

theorem under_eq_of_len {q p : Path} (h : under q p) (hl : p.length ≤ q.length) :
    q = p := by
  rcases under_iff.mp h with ⟨r, rfl⟩
  have : r = [] := by
    rw [List.length_append] at hl
    exact List.eq_nil_of_length_eq_zero (by omega)
  simp [this]

theorem under_trans {a b c : Path} (h1 : under a b) (h2 : under b c) : under a c := by
  rcases under_iff.mp h1 with ⟨r, rfl⟩
  rcases under_iff.mp h2 with ⟨r2, rfl⟩
  rw [List.append_assoc]
  exact under_append _ _

theorem under_head {q p : Path} (hq : q ≠ []) (h : under q p) : p.head? = q.head? := by
  rcases under_iff.mp h with ⟨r, rfl⟩
  cases q with
  | nil => exact absurd rfl hq
  | cons a t => simp

theorem sunder_iff {q p : Path} : sunder q p ↔ ∃ r, r ≠ [] ∧ p = q ++ r := by
  constructor
  · rintro ⟨h, hl⟩
    rcases under_iff.mp h with ⟨r, rfl⟩
    refine ⟨r, ?_, rfl⟩
    intro hr
    subst hr
    simp at hl
  · rintro ⟨r, hr, rfl⟩
    refine ⟨under_append q r, ?_⟩
    simp only [List.length_append]
    have : 0 < r.length := List.length_pos.mpr hr
    omega

theorem under_same_len {i j p : Path} (hi : under i p) (hj : under j p)
    (hl : i.length = j.length) : i = j := by
  unfold under at hi hj
  rw [← hi, ← hj, hl]

/-! ## Well-formedness consequences -/

theorem WF_iff_findP {fs : FS} :
    WF fs ↔ (keysOf fs).Nodup ∧
      ∀ p n, findP fs p = some n →
        p ≠ [] ∧ (2 ≤ p.length → findP fs p.dropLast = some .dir) := by
  constructor
  · intro h
    exact ⟨h.1, fun p n hf => h.2 _ (findP_mem hf)⟩
  · intro h
    exact ⟨h.1, fun e he => h.2 e.1 e.2 (findP_of_mem_nodup h.1 (by simpa using he))⟩

theorem WF_ne_nil {fs : FS} (h : WF fs) {p : Path} {n : Node}
    (hf : findP fs p = some n) : p ≠ [] :=
  (h.2 _ (findP_mem hf)).1

theorem WF_parent {fs : FS} (h : WF fs) {p : Path} {n : Node}
    (hf : findP fs p = some n) (hl : 2 ≤ p.length) :
    findP fs p.dropLast = some .dir :=
  (h.2 _ (findP_mem hf)).2 hl

theorem WF_take_dir {fs : FS} (h : WF fs) :
    ∀ (L : Nat) (p : Path) (n : Node) (k : Nat), p.length ≤ L →
      findP fs p = some n → 1 ≤ k → k < p.length →
      findP fs (p.take k) = some .dir := by
  intro L
  induction L with
  | zero =>
    intro p n k hL _ _ hk2
    omega
  | succ L ih =>
    intro p n k hL hf hk1 hk2
    rcases Nat.lt_or_ge k (p.length - 1) with hlt | hge
    · have hpar : findP fs p.dropLast = some .dir := WF_parent h hf (by omega)
      have ht : p.take k = p.dropLast.take k := by
        rw [List.dropLast_eq_take, List.take_take]
        congr 1
        omega
      rw [ht]
      exact ih p.dropLast .dir k (by rw [List.length_dropLast]; omega) hpar hk1
        (by rw [List.length_dropLast]; omega)
    · have hk : k = p.length - 1 := by omega
      have ht : p.take k = p.dropLast := by rw [List.dropLast_eq_take, hk]
      rw [ht]
      exact WF_parent h hf (by omega)

theorem WF_under_dir {fs : FS} (h : WF fs) {q p : Path} {n : Node}
    (hf : findP fs p = some n) (hq : under q p) (hne : q ≠ [])
    (hlt : q.length < p.length) : findP fs q = some .dir := by
  have := WF_take_dir h p.length p n q.length le_rfl hf (List.length_pos.mpr hne) hlt
  rwa [hq] at this

theorem WF_file_no_sub {fs : FS} (h : WF fs) {i : Path} {c : List Nat}
    (hf : findP fs i = some (.file c)) {p : Path} (hp : sunder i p) :
    findP fs p = none := by
  by_contra hne
  rcases Option.ne_none_iff_exists'.mp hne with ⟨n, hn⟩
  have hi : i ≠ [] := WF_ne_nil h hf
  have hdir := WF_under_dir h hn hp.1 hi hp.2
  rw [hf] at hdir
  simp at hdir

theorem take_succ_dropLast {p : Path} {i : Nat} (hi : i + 1 ≤ p.length) :
    (p.take (i + 1)).dropLast = p.take i := by
  rw [List.dropLast_eq_take, List.length_take, List.take_take]
  congr 1
  omega

theorem take_child_of_sunder {i p : Path} (hp : sunder i p) :
    (p.take (i.length + 1)).dropLast = i ∧ p.take (i.length + 1) ≠ [] ∧
      under (p.take (i.length + 1)) p := by
  rcases sunder_iff.mp hp with ⟨r, hr, rfl⟩
  cases r with
  | nil => exact absurd rfl hr
  | cons a t =>
    have hsz : i.length + 1 ≤ (i ++ a :: t).length := by simp
    have htk : (i ++ a :: t).take (i.length + 1) = i ++ [a] := by
      rw [List.take_append_eq_append_take, List.take_of_length_le (by omega)]
      have : i.length + 1 - i.length = 1 := by omega
      rw [this]
      rfl
    refine ⟨?_, ?_, ?_⟩
    · rw [htk]
      exact List.dropLast_concat
    · rw [htk]
      simp
    · rw [htk]
      have : i ++ a :: t = (i ++ [a]) ++ t := by simp
      rw [this]
      exact under_append _ _

theorem WF_children_nil_no_sub {fs : FS} (h : WF fs) {i : Path}
    (hch : childrenOf fs i = []) {p : Path} (hp : sunder i p) :
    findP fs p = none := by
  by_contra hne
  rcases Option.ne_none_iff_exists'.mp hne with ⟨n, hn⟩
  obtain ⟨hdrop, hne2, hund⟩ := take_child_of_sunder hp
  have hq : findP fs (p.take (i.length + 1)) ≠ none := by
    rcases Nat.lt_or_ge (i.length + 1) p.length with hlt | hge
    · rw [WF_take_dir h p.length p n (i.length + 1) le_rfl hn (by omega) hlt]
      simp
    · have : p.take (i.length + 1) = p := List.take_of_length_le (by omega)
      rw [this, hn]
      simp
  exact (childrenOf_eq_nil_iff.mp hch) _ (findP_ne_none_iff.mp hq) hne2 hdrop

theorem no_children_of_not_dir {fs : FS} (h : WF fs) {p : Path} (hp : p ≠ [])
    (hnd : findP fs p ≠ some .dir) :
    ∀ q ∈ keysOf fs, q ≠ [] → q.dropLast ≠ p := by
  intro q hq hqne hd
  rcases mem_keysOf_iff.mp hq with ⟨n, hm⟩
  have h2 : 2 ≤ q.length := by
    cases q with
    | nil => exact absurd rfl hqne
    | cons a t =>
      cases t with
      | nil =>
        simp at hd
        exact absurd hd.symm (fun hh => hp hh.symm)
      | cons b u => simp
  have hpar := (h.2 _ hm).2 h2
  rw [hd] at hpar
  exact hnd hpar

/-! ## Preservation of well-formedness -/

theorem WF_eraseP {fs : FS} (h : WF fs) {i : Path} (hch : childrenOf fs i = []) :
    WF (eraseP fs i) := by
  rw [WF_iff_findP]
  refine ⟨keysOf_eraseP_nodup h.1 i, fun p n hf => ?_⟩
  rw [findP_eraseP] at hf
  by_cases hpi : p = i
  · rw [if_pos hpi] at hf
    exact absurd hf (by simp)
  · rw [if_neg hpi] at hf
    refine ⟨WF_ne_nil h hf, fun hl => ?_⟩
    rw [findP_eraseP, if_neg, WF_parent h hf hl]
    intro hdi
    exact (childrenOf_eq_nil_iff.mp hch) p (findP_ne_none_iff.mp (by rw [hf]; simp))
      (WF_ne_nil h hf) hdi

theorem WF_setP {fs : FS} (h : WF fs) {p : Path} {n : Node}
    (hp : p ≠ []) (hpar : 2 ≤ p.length → findP fs p.dropLast = some .dir)
    (hch : ∀ q ∈ keysOf fs, q ≠ [] → q.dropLast ≠ p) :
    WF (setP fs p n) := by
  rw [WF_iff_findP]
  refine ⟨keysOf_setP_nodup h.1 p n, fun q m hf => ?_⟩
  rw [findP_setP] at hf
  by_cases hqp : q = p
  · subst hqp
    refine ⟨hp, fun hl => ?_⟩
    rw [findP_setP, if_neg, hpar hl]
    intro hd
    have := congrArg List.length hd
    rw [List.length_dropLast] at this
    omega
  · rw [if_neg hqp] at hf
    refine ⟨WF_ne_nil h hf, fun hl => ?_⟩
    rw [findP_setP, if_neg, WF_parent h hf hl]
    exact fun hd => hch q (findP_ne_none_iff.mp (by rw [hf]; simp)) (WF_ne_nil h hf) hd

/-! ## Characterizations of the filesystem operations -/

theorem osRemove_noRO {fs : FS} {p : Path} {c : List Nat}
    (hf : findP fs p = some (.file c)) :
    osRemove noRO fs p = some (eraseP fs p) := by
  simp [osRemove, hf, noRO]

theorem osRmdir_noRO {fs : FS} {p : Path}
    (hf : findP fs p = some .dir) (hch : childrenOf fs p = []) :
    osRmdir noRO fs p = some (eraseP fs p) := by
  simp [osRmdir, hf, noRO, hch]

theorem mem_leadSegs_iff {p q : Path} :
    q ∈ leadSegs p ↔ ∃ i, i < p.length ∧ q = p.take (i + 1) := by
  simp only [leadSegs, List.mem_map, List.mem_range]
  constructor
  · rintro ⟨i, hi, rfl⟩
    exact ⟨i, hi, rfl⟩
  · rintro ⟨i, hi, rfl⟩
    exact ⟨i, hi, rfl⟩

theorem leadSegs_under {p q : Path} (h : q ∈ leadSegs p) : under q p ∧ q ≠ [] := by
  rcases mem_leadSegs_iff.mp h with ⟨i, hi, rfl⟩
  have hlen : (p.take (i + 1)).length = i + 1 := by
    rw [List.length_take]
    omega
  constructor
  · unfold under
    rw [hlen]
  · intro h0
    rw [h0] at hlen
    simp at hlen

theorem under_mem_leadSegs {p q : Path} (hu : under q p) (hq : q ≠ []) :
    q ∈ leadSegs p := by
  have h1 : 1 ≤ q.length := List.length_pos.mpr hq
  have h2 : q.length ≤ p.length := under_len hu
  exact mem_leadSegs_iff.mpr ⟨q.length - 1, by omega, by
    rw [show q.length - 1 + 1 = q.length by omega]
    exact hu.symm⟩

theorem mkdirsGo_char :
    ∀ (qs : List Path) (g : FS),
      (∀ q ∈ qs, ∀ c, findP g q ≠ some (.file c)) →
      ∃ g', mkdirsGo g qs = some g' ∧
        (∀ r, findP g' r =
          if r ∈ qs ∧ findP g r = none then some .dir else findP g r) ∧
        ((keysOf g).Nodup → (keysOf g').Nodup) := by
  intro qs
  induction qs with
  | nil =>
    intro g _
    exact ⟨g, rfl, fun r => by simp, id⟩
  | cons q qs ih =>
    intro g hq
    cases hfq : findP g q with
    | none =>
      obtain ⟨g', hg', hchar, hnd⟩ := ih (setP g q .dir) (fun q' hq' c => by
        rw [findP_setP]
        by_cases h' : q' = q
        · rw [if_pos h']
          simp
        · rw [if_neg h']
          exact hq q' (List.mem_cons_of_mem _ hq') c)
      refine ⟨g', by simp [mkdirsGo, hfq, hg'], fun r => ?_,
        fun h => hnd (keysOf_setP_nodup h q .dir)⟩
      rw [hchar r]
      simp only [findP_setP]
      by_cases hrq : r = q
      · subst hrq
        simp [hfq]
      · simp only [if_neg hrq]
        by_cases hmem : r ∈ qs ∧ findP g r = none
        · rw [if_pos hmem, if_pos ⟨List.mem_cons_of_mem _ hmem.1, hmem.2⟩]
        · have hnotin : ¬(r ∈ q :: qs ∧ findP g r = none) := by
            rintro ⟨hin, hnone⟩
            rcases List.mem_cons.mp hin with rfl | hin
            · exact hrq rfl
            · exact hmem ⟨hin, hnone⟩
          rw [if_neg hmem, if_neg hnotin]
    | some n =>
      cases n with
      | dir =>
        obtain ⟨g', hg', hchar, hnd⟩ :=
          ih g (fun q' hq' => hq q' (List.mem_cons_of_mem _ hq'))
        refine ⟨g', by simp [mkdirsGo, hfq, hg'], fun r => ?_, hnd⟩
        rw [hchar r]
        by_cases hmem : r ∈ qs ∧ findP g r = none
        · rw [if_pos hmem, if_pos ⟨List.mem_cons_of_mem _ hmem.1, hmem.2⟩]
        · have hnotin : ¬(r ∈ q :: qs ∧ findP g r = none) := by
            rintro ⟨hin, hnone⟩
            rcases List.mem_cons.mp hin with rfl | hin
            · rw [hfq] at hnone
              exact Option.noConfusion hnone
            · exact hmem ⟨hin, hnone⟩
          rw [if_neg hmem, if_neg hnotin]
      | file c => exact absurd hfq (hq q (List.mem_cons_self _ _) c)

theorem osMakedirs_WF {fs : FS} {p : Path} (h : WF fs)
    (hsegs : ∀ q ∈ leadSegs p, ∀ c, findP fs q ≠ some (.file c)) :
    ∃ g', osMakedirs fs p = some g' ∧
      (∀ r, findP g' r =
        if r ∈ leadSegs p ∧ findP fs r = none then some .dir else findP fs r) ∧
      WF g' := by
  obtain ⟨g', h1, h2, h3⟩ := mkdirsGo_char (leadSegs p) fs hsegs
  refine ⟨g', h1, h2, ?_⟩
  rw [WF_iff_findP]
  refine ⟨h3 h.1, fun r n hf => ?_⟩
  rw [h2 r] at hf
  by_cases hc : r ∈ leadSegs p ∧ findP fs r = none
  · rw [if_pos hc] at hf
    have hrne : r ≠ [] := (leadSegs_under hc.1).2
    refine ⟨hrne, fun hl => ?_⟩
    rcases mem_leadSegs_iff.mp hc.1 with ⟨i, hi, rfl⟩
    have hlen : (p.take (i + 1)).length = i + 1 := by
      rw [List.length_take]
      omega
    have hi1 : 1 ≤ i := by omega
    have hdl : (p.take (i + 1)).dropLast = p.take i := take_succ_dropLast (by omega)
    rw [hdl, h2]
    have hmem : p.take i ∈ leadSegs p :=
      mem_leadSegs_iff.mpr ⟨i - 1, by omega, by congr 1; omega⟩
    by_cases hc2 : p.take i ∈ leadSegs p ∧ findP fs (p.take i) = none
    · rw [if_pos hc2]
    · rw [if_neg hc2]
      have hne2 : findP fs (p.take i) ≠ none := fun hnone => hc2 ⟨hmem, hnone⟩
      rcases Option.ne_none_iff_exists'.mp hne2 with ⟨m, hm⟩
      cases m with
      | dir => exact hm
      | file c => exact absurd hm (hsegs _ hmem c)
  · rw [if_neg hc] at hf
    refine ⟨WF_ne_nil h hf, fun hl => ?_⟩
    rw [h2]
    have hpar := WF_parent h hf hl
    rw [if_neg, hpar]
    rintro ⟨_, hnone⟩
    rw [hpar] at hnone
    exact Option.noConfusion hnone

/-! ## Small facts used by the pass characterizations -/

theorem isfileB_iff {fs : FS} {p : Path} :
    isfileB fs p = true ↔ ∃ c, findP fs p = some (.file c) := by
  unfold isfileB
  cases h : findP fs p with
  | none => simp
  | some n =>
    cases n with
    | file c => simp
    | dir => simp

theorem not_isfileB_dir {fs : FS} {p : Path} {n : Node}
    (h : ¬ isfileB fs p = true) (hf : findP fs p = some n) : n = .dir := by
  cases n with
  | file c => exact absurd (isfileB_iff.mpr ⟨c, hf⟩) h
  | dir => rfl

theorem files_no_children {fs : FS} (h : WF fs) {p : Path} {c : List Nat}
    (hf : findP fs p = some (.file c)) : childrenOf fs p = [] := by
  rw [childrenOf_eq_nil_iff]
  intro q hq hne hd
  rcases child_shape.mp ⟨hne, hd⟩ with ⟨a, rfl⟩
  have hs : sunder p (p ++ [a]) := sunder_iff.mpr ⟨[a], by simp, rfl⟩
  have := WF_file_no_sub h hf hs
  exact (findP_ne_none_iff.mpr hq) this

theorem under_ne_sunder {i p : Path} (hu : under i p) (hne : p ≠ i) : sunder i p := by
  refine ⟨hu, ?_⟩
  rcases Nat.lt_or_ge i.length p.length with h | h
  · exact h
  · exact absurd (under_eq_of_len hu h).symm hne

theorem child_len {i folder : Path} (hd : i.dropLast = folder) (hne : i ≠ []) :
    i.length = folder.length + 1 := by
  rcases child_shape.mp ⟨hne, hd⟩ with ⟨a, rfl⟩
  simp

theorem child_head {i folder : Path} (hd : i.dropLast = folder) (hne : i ≠ [])
    (hfold : folder ≠ []) : i.head? = folder.head? := by
  rcases child_shape.mp ⟨hne, hd⟩ with ⟨a, rfl⟩
  cases folder with
  | nil => exact absurd rfl hfold
  | cons x t => simp

theorem replaceHead_head {src p : Path} (h : src ≠ []) :
    (replaceHead src p).head? = src.head? := by
  unfold replaceHead
  cases src with
  | nil => exact absurd rfl h
  | cons x t => simp

theorem not_under_of_head_ne {i x : Path} (hi : i ≠ []) (h : i.head? ≠ x.head?) :
    ¬ under i x :=
  fun hu => h (under_head hi hu).symm

theorem childrenOf_nil_congr {fs g : FS} {p : Path}
    (h : ∀ a, findP g (p ++ [a]) = findP fs (p ++ [a])) :
    childrenOf g p = [] ↔ childrenOf fs p = [] := by
  rw [childrenOf_eq_nil_iff, childrenOf_eq_nil_iff]
  constructor
  · intro hh q hq hne hd
    rcases child_shape.mp ⟨hne, hd⟩ with ⟨a, rfl⟩
    refine hh _ ?_ hne hd
    rw [← findP_ne_none_iff, h a, findP_ne_none_iff]
    exact hq
  · intro hh q hq hne hd
    rcases child_shape.mp ⟨hne, hd⟩ with ⟨a, rfl⟩
    refine hh _ ?_ hne hd
    rw [← findP_ne_none_iff, ← h a, findP_ne_none_iff]
    exact hq

theorem orphRem_congr {src : Path} {fs g : FS} {i p : Path}
    (hloc : ∀ q, ¬ under i q → findP g q = findP fs q)
    (hip : ¬ under i p)
    (hlen : i.length ≤ p.length)
    (hrep : ¬ under i (replaceHead src p)) :
    orphRem src g p ↔ orphRem src fs p := by
  have hp : findP g p = findP fs p := hloc p hip
  have hch : ∀ a, findP g (p ++ [a]) = findP fs (p ++ [a]) := by
    intro a
    apply hloc
    intro hu
    apply hip
    unfold under at hu ⊢
    rw [List.take_append_eq_append_take, show i.length - p.length = 0 by omega] at hu
    simpa using hu
  have hex : existsB g (replaceHead src p) = existsB fs (replaceHead src p) := by
    unfold existsB
    rw [hloc _ hrep]
  have hif : isfileB g p = isfileB fs p := by
    unfold isfileB
    rw [hp]
  have hche := childrenOf_nil_congr hch
  unfold orphRem
  rw [hex, hif, hp]
  constructor
  · rintro ⟨h1 | ⟨h1a, h1b⟩, h2⟩
    · exact ⟨Or.inl h1, h2⟩
    · exact ⟨Or.inr ⟨h1a, hche.mp h1b⟩, h2⟩
  · rintro ⟨h1 | ⟨h1a, h1b⟩, h2⟩
    · exact ⟨Or.inl h1, h2⟩
    · exact ⟨Or.inr ⟨h1a, hche.mpr h1b⟩, h2⟩

theorem eraseP_loc {fs : FS} {i : Path} :
    ∀ q, ¬ under i q → findP (eraseP fs i) q = findP fs q := by
  intro q hq
  rw [findP_eraseP, if_neg]
  intro h
  subst h
  exact hq (under_refl q)

/-! ## Orphan-pass loop characterization -/

theorem skip_no_orph {fs : FS} {src i p : Path}
    (hnosub : ∀ p', sunder i p' → findP fs p' = none)
    (hex : existsB fs (replaceHead src i) = true) :
    ¬ (under i p ∧ orphRem src fs p) := by
  rintro ⟨hu, h1, h2⟩
  by_cases hpi : p = i
  · subst hpi
    rw [h2] at hex
    exact Bool.noConfusion hex
  · have hnone := hnosub p (under_ne_sunder hu hpi)
    rcases h1 with h1 | ⟨h1a, _⟩
    · rcases isfileB_iff.mp h1 with ⟨c, hc⟩
      rw [hnone] at hc
      exact Option.noConfusion hc
    · rw [hnone] at h1a
      exact Option.noConfusion h1a

theorem no_orph_of_none {fs : FS} {src p : Path} (hnone : findP fs p = none) :
    ¬ orphRem src fs p := by
  rintro ⟨h1 | ⟨h1a, _⟩, _⟩
  · rcases isfileB_iff.mp h1 with ⟨c, hc⟩
    rw [hnone] at hc
    exact Option.noConfusion hc
  · rw [hnone] at h1a
    exact Option.noConfusion h1a

theorem loop_skip_char {src i : Path} {rest : List Path} {fs RES : FS}
    (hnosub : ∀ p', sunder i p' → findP fs p' = none)
    (hex : existsB fs (replaceHead src i) = true)
    (hrestchar : ∀ p, findP RES p =
      if (∃ j ∈ rest, under j p) ∧ orphRem src fs p then none else findP fs p) :
    ∀ p, findP RES p =
      if (∃ k ∈ i :: rest, under k p) ∧ orphRem src fs p then none
      else findP fs p := by
  intro p
  rw [hrestchar p]
  have hiff : ((∃ k ∈ i :: rest, under k p) ∧ orphRem src fs p) ↔
      ((∃ j ∈ rest, under j p) ∧ orphRem src fs p) := by
    constructor
    · rintro ⟨⟨k, hk, hu⟩, ho⟩
      rcases List.mem_cons.mp hk with rfl | hk
      · exact absurd ⟨hu, ho⟩ (skip_no_orph hnosub hex)
      · exact ⟨⟨k, hk, hu⟩, ho⟩
    · rintro ⟨⟨j, hj, hu⟩, ho⟩
      exact ⟨⟨j, List.mem_cons_of_mem _ hj, hu⟩, ho⟩
  by_cases hcond : (∃ j ∈ rest, under j p) ∧ orphRem src fs p
  · rw [if_pos hcond, if_pos (hiff.mpr hcond)]
  · rw [if_neg hcond, if_neg (fun hh => hcond (hiff.mp hh))]

theorem loop_erase_char {src i : Path} {rest : List Path} {fs RES : FS}
    (hnosub : ∀ p', sunder i p' → findP fs p' = none)
    (horph : orphRem src fs i)
    (hjlen : ∀ j ∈ rest, j.length = i.length)
    (hinotrest : i ∉ rest)
    (hrep : ∀ p, ¬ under i (replaceHead src p))
    (hrestchar : ∀ p, findP RES p =
      if (∃ j ∈ rest, under j p) ∧ orphRem src (eraseP fs i) p then none
      else findP (eraseP fs i) p) :
    ∀ p, findP RES p =
      if (∃ k ∈ i :: rest, under k p) ∧ orphRem src fs p then none
      else findP fs p := by
  intro p
  rw [hrestchar p]
  have hnojrest : ∀ p', under i p' → ¬ ∃ j ∈ rest, under j p' := by
    rintro p' hip ⟨j, hj, hjp⟩
    have hje := under_same_len hjp hip (hjlen j hj)
    rw [hje] at hj
    exact hinotrest hj
  by_cases hip : under i p
  · rw [if_neg (fun hh => hnojrest p hip hh.1)]
    by_cases hpi : p = i
    · subst hpi
      rw [findP_eraseP, if_pos rfl,
        if_pos ⟨⟨p, List.mem_cons_self _ _, under_refl p⟩, horph⟩]
    · have hnone := hnosub p (under_ne_sunder hip hpi)
      rw [findP_eraseP, if_neg hpi, hnone,
        if_neg (fun hh => no_orph_of_none hnone hh.2)]
  · have hfp : findP (eraseP fs i) p = findP fs p := eraseP_loc p hip
    by_cases hj : ∃ j ∈ rest, under j p
    · have hlen : i.length ≤ p.length := by
        obtain ⟨j, hjm, hju⟩ := hj
        rw [← hjlen j hjm]
        exact under_len hju
      have hcong := @orphRem_congr src fs (eraseP fs i) i p
        (fun q hq => eraseP_loc q hq) hip hlen (hrep p)
      by_cases ho : orphRem src fs p
      · rw [if_pos ⟨hj, hcong.mpr ho⟩]
        obtain ⟨j, hjm, hju⟩ := hj
        rw [if_pos ⟨⟨j, List.mem_cons_of_mem _ hjm, hju⟩, ho⟩]
      · rw [if_neg (fun hh => ho (hcong.mp hh.2)), hfp, if_neg]
        rintro ⟨⟨k, hk, hku⟩, ho2⟩
        rcases List.mem_cons.mp hk with rfl | hk
        · exact hip hku
        · exact ho ho2
    · rw [if_neg (fun hh => hj hh.1), hfp, if_neg]
      rintro ⟨⟨k, hk, hku⟩, _⟩
      rcases List.mem_cons.mp hk with rfl | hk
      · exact hip hku
      · exact hj ⟨k, hk, hku⟩

theorem loop_recurse_char {src i : Path} {rest : List Path} {fs g RES : FS}
    (horphno : ¬ orphRem src fs i)
    (hgchar : ∀ p, findP g p =
      if sunder i p ∧ orphRem src fs p then none else findP fs p)
    (hjlen : ∀ j ∈ rest, j.length = i.length)
    (hinotrest : i ∉ rest)
    (hrep : ∀ p, ¬ under i (replaceHead src p))
    (hrestchar : ∀ p, findP RES p =
      if (∃ j ∈ rest, under j p) ∧ orphRem src g p then none else findP g p) :
    ∀ p, findP RES p =
      if (∃ k ∈ i :: rest, under k p) ∧ orphRem src fs p then none
      else findP fs p := by
  intro p
  rw [hrestchar p]
  have hloc : ∀ q, ¬ under i q → findP g q = findP fs q := by
    intro q hq
    rw [hgchar q, if_neg]
    rintro ⟨hs, _⟩
    exact hq hs.1
  have hnojrest : ∀ p', under i p' → ¬ ∃ j ∈ rest, under j p' := by
    rintro p' hip ⟨j, hj, hjp⟩
    have hje := under_same_len hjp hip (hjlen j hj)
    rw [hje] at hj
    exact hinotrest hj
  by_cases hip : under i p
  · rw [if_neg (fun hh => hnojrest p hip hh.1), hgchar p]
    by_cases hpi : p = i
    · subst hpi
      rw [if_neg (fun hh => absurd hh.2 horphno),
        if_neg (fun hh => absurd hh.2 horphno)]
    · have hs := under_ne_sunder hip hpi
      by_cases ho : orphRem src fs p
      · rw [if_pos ⟨hs, ho⟩,
          if_pos ⟨⟨i, List.mem_cons_self _ _, hip⟩, ho⟩]
      · rw [if_neg (fun hh => ho hh.2), if_neg (fun hh => ho hh.2)]
  · have hfp : findP g p = findP fs p := hloc p hip
    by_cases hj : ∃ j ∈ rest, under j p
    · have hlen : i.length ≤ p.length := by
        obtain ⟨j, hjm, hju⟩ := hj
        rw [← hjlen j hjm]
        exact under_len hju
      have hcong := orphRem_congr hloc hip hlen (hrep p)
      by_cases ho : orphRem src fs p
      · rw [if_pos ⟨hj, hcong.mpr ho⟩]
        obtain ⟨j, hjm, hju⟩ := hj
        rw [if_pos ⟨⟨j, List.mem_cons_of_mem _ hjm, hju⟩, ho⟩]
      · rw [if_neg (fun hh => ho (hcong.mp hh.2)), hfp, if_neg]
        rintro ⟨⟨k, hk, hku⟩, ho2⟩
        rcases List.mem_cons.mp hk with rfl | hk
        · exact hip hku
        · exact ho ho2
    · rw [if_neg (fun hh => hj hh.1), hfp, if_neg]
      rintro ⟨⟨k, hk, hku⟩, _⟩
      rcases List.mem_cons.mp hk with rfl | hk
      · exact hip hku
      · exact hj ⟨k, hk, hku⟩

theorem childrenOf_nodup {fs : FS} (h : (keysOf fs).Nodup) (p : Path) :
    (childrenOf fs p).Nodup :=
  h.sublist (List.Sublist.map _ (List.filter_sublist _))

/-- One directory level of the orphan pass removes exactly the entries
below one of the visited children that satisfy the orphan condition of
the entry state, and preserves well-formedness. -/
theorem syncChildLoop_char
    (src folder : Path) (fuel : Nat) (recurse : FS → Path → FS × List Event)
    (hsrc : src ≠ []) (hfold : folder ≠ [])
    (hhead : src.head? ≠ folder.head?)
    (Hrec : ∀ g i, WF g → i ≠ [] → i.dropLast = folder → findP g i = some .dir →
      (∀ q ∈ keysOf g, q.length < i.length + fuel) →
      (∀ p, findP (recurse g i).1 p =
        if sunder i p ∧ orphRem src g p then none else findP g p) ∧
        WF (recurse g i).1) :
    ∀ (items : List Path) (fs : FS),
      WF fs →
      (∀ i ∈ items, i ≠ [] ∧ i.dropLast = folder ∧ i ∈ keysOf fs) →
      items.Nodup →
      (∀ q ∈ keysOf fs, q.length < folder.length + 1 + fuel) →
      (∀ p, findP (syncChildLoop noRO src recurse folder fs items).1 p =
        if (∃ k ∈ items, under k p) ∧ orphRem src fs p then none
        else findP fs p) ∧
      WF (syncChildLoop noRO src recurse folder fs items).1 := by
  intro items
  induction items with
  | nil =>
    intro fs hwf _ _ _
    refine ⟨fun p => ?_, hwf⟩
    simp [syncChildLoop]
  | cons i rest ih =>
    intro fs hwf hitems hnodup hbound
    obtain ⟨hine, hdrop, hikey⟩ := hitems i (List.mem_cons_self _ _)
    have hrestitems := fun j hj => hitems j (List.mem_cons_of_mem _ hj)
    have hinotrest : i ∉ rest := (List.nodup_cons.mp hnodup).1
    have hrestnodup : rest.Nodup := (List.nodup_cons.mp hnodup).2
    have hilen : i.length = folder.length + 1 := child_len hdrop hine
    have hihead : i.head? = folder.head? := child_head hdrop hine hfold
    have hrep : ∀ p, ¬ under i (replaceHead src p) := by
      intro p
      refine not_under_of_head_ne hine ?_
      rw [hihead, replaceHead_head hsrc]
      intro hh
      exact hhead hh.symm
    have hjlen : ∀ j ∈ rest, j.length = i.length := by
      intro j hj
      rw [child_len (hrestitems j hj).2.1 (hrestitems j hj).1, hilen]
    have hfi : findP fs i ≠ none := findP_ne_none_iff.mpr hikey
    by_cases hfile : isfileB fs i = true
    · rcases isfileB_iff.mp hfile with ⟨c, hc⟩
      have hnosub : ∀ p', sunder i p' → findP fs p' = none :=
        fun p' hs => WF_file_no_sub hwf hc hs
      have hchnil : childrenOf fs i = [] := files_no_children hwf hc
      by_cases hex : existsB fs (replaceHead src i) = true
      · have hstep : syncChildLoop noRO src recurse folder fs (i :: rest) =
            syncChildLoop noRO src recurse folder fs rest := by
          simp [syncChildLoop, hfile, hex]
        rw [hstep]
        obtain ⟨ihchar, ihwf⟩ := ih fs hwf hrestitems hrestnodup hbound
        exact ⟨loop_skip_char hnosub hex ihchar, ihwf⟩
      · have hexf : existsB fs (replaceHead src i) = false := by
          cases hb : existsB fs (replaceHead src i)
          · rfl
          · exact absurd hb hex
        have hrm : osRemove noRO fs i = some (eraseP fs i) := osRemove_noRO hc
        have hstep : (syncChildLoop noRO src recurse folder fs (i :: rest)).1 =
            (syncChildLoop noRO src recurse folder (eraseP fs i) rest).1 := by
          simp [syncChildLoop, hfile, hex, hrm]
        have hwf1 : WF (eraseP fs i) := WF_eraseP hwf hchnil
        have hrestitems1 : ∀ j ∈ rest,
            j ≠ [] ∧ j.dropLast = folder ∧ j ∈ keysOf (eraseP fs i) := by
          intro j hj
          refine ⟨(hrestitems j hj).1, (hrestitems j hj).2.1, ?_⟩
          rw [← findP_ne_none_iff, findP_eraseP,
            if_neg (fun hji : j = i => hinotrest (hji ▸ hj)), findP_ne_none_iff]
          exact (hrestitems j hj).2.2
        have hbound1 : ∀ q ∈ keysOf (eraseP fs i),
            q.length < folder.length + 1 + fuel :=
          fun q hq => hbound q ((keysOf_eraseP_sublist fs i).subset hq)
        obtain ⟨ihchar, ihwf⟩ := ih (eraseP fs i) hwf1 hrestitems1 hrestnodup hbound1
        have horph : orphRem src fs i := ⟨Or.inl hfile, hexf⟩
        refine ⟨fun p => ?_, ?_⟩
        · rw [hstep]
          exact loop_erase_char hnosub horph hjlen hinotrest hrep ihchar p
        · rw [hstep]
          exact ihwf
    · rcases Option.ne_none_iff_exists'.mp hfi with ⟨n, hn⟩
      have hdir : findP fs i = some .dir := by
        rw [hn, not_isfileB_dir hfile hn]
      have hls : osListdir fs i = some (childrenOf fs i) := by
        simp [osListdir, hdir]
      by_cases hch : (childrenOf fs i).isEmpty
      · have hchnil : childrenOf fs i = [] := List.isEmpty_iff.mp hch
        have hnosub : ∀ p', sunder i p' → findP fs p' = none :=
          fun p' hs => WF_children_nil_no_sub hwf hchnil hs
        by_cases hex : existsB fs (replaceHead src i) = true
        · have hstep : syncChildLoop noRO src recurse folder fs (i :: rest) =
              syncChildLoop noRO src recurse folder fs rest := by
            simp [syncChildLoop, hfile, hls, hch, hex]
          rw [hstep]
          obtain ⟨ihchar, ihwf⟩ := ih fs hwf hrestitems hrestnodup hbound
          exact ⟨loop_skip_char hnosub hex ihchar, ihwf⟩
        · have hexf : existsB fs (replaceHead src i) = false := by
            cases hb : existsB fs (replaceHead src i)
            · rfl
            · exact absurd hb hex
          have hrm : osRmdir noRO fs i = some (eraseP fs i) := osRmdir_noRO hdir hchnil
          have hstep : (syncChildLoop noRO src recurse folder fs (i :: rest)).1 =
              (syncChildLoop noRO src recurse folder (eraseP fs i) rest).1 := by
            simp [syncChildLoop, hfile, hls, hch, hex, hrm]
          have hwf1 : WF (eraseP fs i) := WF_eraseP hwf hchnil
          have hrestitems1 : ∀ j ∈ rest,
              j ≠ [] ∧ j.dropLast = folder ∧ j ∈ keysOf (eraseP fs i) := by
            intro j hj
            refine ⟨(hrestitems j hj).1, (hrestitems j hj).2.1, ?_⟩
            rw [← findP_ne_none_iff, findP_eraseP,
              if_neg (fun hji : j = i => hinotrest (hji ▸ hj)), findP_ne_none_iff]
            exact (hrestitems j hj).2.2
          have hbound1 : ∀ q ∈ keysOf (eraseP fs i),
              q.length < folder.length + 1 + fuel :=
            fun q hq => hbound q ((keysOf_eraseP_sublist fs i).subset hq)
          obtain ⟨ihchar, ihwf⟩ :=
            ih (eraseP fs i) hwf1 hrestitems1 hrestnodup hbound1
          have horph : orphRem src fs i := ⟨Or.inr ⟨hdir, hchnil⟩, hexf⟩
          refine ⟨fun p => ?_, ?_⟩
          · rw [hstep]
            exact loop_erase_char hnosub horph hjlen hinotrest hrep ihchar p
          · rw [hstep]
            exact ihwf
      · have hchne : childrenOf fs i ≠ [] := by
          intro hh
          rw [hh] at hch
          simp at hch
        have horphno : ¬ orphRem src fs i := by
          rintro ⟨h1 | ⟨_, h1b⟩, _⟩
          · exact hfile h1
          · exact hchne h1b
        have hboundg : ∀ q ∈ keysOf fs, q.length < i.length + fuel := by
          intro q hq
          rw [hilen]
          have := hbound q hq
          omega
        obtain ⟨hgchar, hgwf⟩ := Hrec fs i hwf hine hdrop hdir hboundg
        have hrestitems1 : ∀ j ∈ rest,
            j ≠ [] ∧ j.dropLast = folder ∧ j ∈ keysOf (recurse fs i).1 := by
          intro j hj
          refine ⟨(hrestitems j hj).1, (hrestitems j hj).2.1, ?_⟩
          rw [← findP_ne_none_iff, hgchar j, if_neg ?_, findP_ne_none_iff]
          · exact (hrestitems j hj).2.2
          · rintro ⟨⟨_, hsl⟩, _⟩
            rw [hjlen j hj] at hsl
            omega
        have hboundg2 : ∀ q ∈ keysOf (recurse fs i).1,
            q.length < folder.length + 1 + fuel := by
          intro q hq
          apply hbound
          rw [← findP_ne_none_iff] at hq
          rw [hgchar q] at hq
          by_cases hcond : sunder i q ∧ orphRem src fs q
          · rw [if_pos hcond] at hq
            exact absurd rfl hq
          · rw [if_neg hcond] at hq
            exact findP_ne_none_iff.mp hq
        obtain ⟨ihchar, ihwf⟩ :=
          ih (recurse fs i).1 hgwf hrestitems1 hrestnodup hboundg2
        have hstep : (syncChildLoop noRO src recurse folder fs (i :: rest)).1 =
            (syncChildLoop noRO src recurse folder (recurse fs i).1 rest).1 := by
          simp [syncChildLoop, hfile, hls, hch]
        refine ⟨fun p => ?_, ?_⟩
        · rw [hstep]
          exact loop_recurse_char horphno hgchar hjlen hinotrest hrep ihchar p
        · rw [hstep]
          exact ihwf

/-- The recursive orphan walk below a present directory `folder`
removes exactly the strictly-below entries satisfying the orphan
condition of the initial state. -/
theorem syncDestAux_char (src : Path) (hsrc : src ≠ []) :
    ∀ (fuel : Nat) (fs : FS) (folder : Path),
      WF fs → folder ≠ [] → src.head? ≠ folder.head? →
      findP fs folder = some .dir →
      (∀ q ∈ keysOf fs, q.length < folder.length + fuel) →
      (∀ p, findP (syncDestAux noRO src fuel fs folder).1 p =
        if sunder folder p ∧ orphRem src fs p then none else findP fs p) ∧
      WF (syncDestAux noRO src fuel fs folder).1 := by
  intro fuel
  induction fuel with
  | zero =>
    intro fs folder hwf hfold hhead hdir hbound
    have hkey : folder ∈ keysOf fs := findP_ne_none_iff.mp (by rw [hdir]; simp)
    have := hbound folder hkey
    omega
  | succ fuel ihf =>
    intro fs folder hwf hfold hhead hdir hbound
    have hls : osListdir fs folder = some (childrenOf fs folder) := by
      simp [osListdir, hdir]
    have hstep : syncDestAux noRO src (fuel + 1) fs folder =
        syncChildLoop noRO src (syncDestAux noRO src fuel) folder fs
          (childrenOf fs folder) := by
      simp [syncDestAux, hls]
    have Hrec : ∀ g i, WF g → i ≠ [] → i.dropLast = folder → findP g i = some .dir →
        (∀ q ∈ keysOf g, q.length < i.length + fuel) →
        (∀ p, findP (syncDestAux noRO src fuel g i).1 p =
          if sunder i p ∧ orphRem src g p then none else findP g p) ∧
        WF (syncDestAux noRO src fuel g i).1 := by
      intro g i hwfg hine hdropi hdiri hboundi
      have hheadi : src.head? ≠ i.head? := by
        rw [child_head hdropi hine hfold]
        exact hhead
      exact ihf g i hwfg hine hheadi hdiri hboundi
    have hitems : ∀ j ∈ childrenOf fs folder,
        j ≠ [] ∧ j.dropLast = folder ∧ j ∈ keysOf fs := by
      intro j hj
      rcases mem_childrenOf_iff.mp hj with ⟨hk, hne, hd⟩
      exact ⟨hne, hd, hk⟩
    have hbound2 : ∀ q ∈ keysOf fs, q.length < folder.length + 1 + fuel := by
      intro q hq
      have := hbound q hq
      omega
    obtain ⟨lchar, lwf⟩ := syncChildLoop_char src folder fuel _ hsrc hfold hhead Hrec
      (childrenOf fs folder) fs hwf hitems (childrenOf_nodup hwf.1 folder) hbound2
    have hcondiff : ∀ p,
        ((∃ k ∈ childrenOf fs folder, under k p) ∧ orphRem src fs p ↔
          sunder folder p ∧ orphRem src fs p) := by
      intro p
      constructor
      · rintro ⟨⟨k, hk, hku⟩, ho⟩
        rcases mem_childrenOf_iff.mp hk with ⟨hkk, hkne, hkd⟩
        rcases child_shape.mp ⟨hkne, hkd⟩ with ⟨a, rfl⟩
        refine ⟨⟨under_trans (under_append folder [a]) hku, ?_⟩, ho⟩
        have := under_len hku
        simp at this
        omega
      · rintro ⟨hs, ho⟩
        obtain ⟨hdl, hne2, hund⟩ := take_child_of_sunder hs
        have hpne : findP fs p ≠ none := by
          rcases ho with ⟨h1 | ⟨h1a, _⟩, _⟩
          · rcases isfileB_iff.mp h1 with ⟨c, hc⟩
            rw [hc]
            simp
          · rw [h1a]
            simp
        rcases Option.ne_none_iff_exists'.mp hpne with ⟨m, hm⟩
        have hkey : p.take (folder.length + 1) ∈ keysOf fs := by
          rcases Nat.lt_or_ge (folder.length + 1) p.length with hlt | hge
          · rw [← findP_ne_none_iff,
              WF_take_dir hwf p.length p m (folder.length + 1) le_rfl hm (by omega) hlt]
            simp
          · have heq : p.take (folder.length + 1) = p :=
              List.take_of_length_le (by omega)
            rw [heq]
            exact findP_ne_none_iff.mp hpne
        exact ⟨⟨_, mem_childrenOf_iff.mpr ⟨hkey, hne2, hdl⟩, hund⟩, ho⟩
    refine ⟨fun p => ?_, by rw [hstep]; exact lwf⟩
    rw [hstep, lchar p]
    by_cases hcond : sunder folder p ∧ orphRem src fs p
    · rw [if_pos hcond, if_pos ((hcondiff p).mpr hcond)]
    · rw [if_neg hcond, if_neg (fun hh => hcond ((hcondiff p).mp hh))]

/-- `synchronize_destination_folder` on a well-formed filesystem whose
roots are disjoint in their first component: it removes exactly the
orphaned files and the orphaned already-empty directories strictly
below the destination root. -/
theorem sync_dest_char {src dst : Path} {fs : FS}
    (hwf : WF fs) (hsrc : src ≠ []) (hdst : dst ≠ [])
    (hhead : src.head? ≠ dst.head?) (hdir : findP fs dst = some .dir) :
    (∀ p, findP (synchronize_destination_folder noRO src dst fs).1 p =
      if sunder dst p ∧ orphRem src fs p then none else findP fs p) ∧
    WF (synchronize_destination_folder noRO src dst fs).1 := by
  unfold synchronize_destination_folder
  apply syncDestAux_char src hsrc (maxKeyLen fs + 1) fs dst hwf hdst hhead hdir
  intro q hq
  have h1 := mem_keysOf_maxKeyLen hq
  omega

/-! ## Forward-pass helpers -/

theorem dropLast_append_getLastD (l : List String) (a : String) (h : l ≠ []) :
    l.dropLast ++ [l.getLastD a] = l := by
  induction l generalizing a with
  | nil => exact absurd rfl h
  | cons x t ih =>
    cases t with
    | nil => simp [List.getLastD]
    | cons y u =>
      have hyu : (y :: u) ≠ [] := by simp
      have hdl : (x :: y :: u).dropLast = x :: (y :: u).dropLast := by simp
      have hgl : (x :: y :: u).getLastD a = (y :: u).getLastD a := by
        simp [List.getLastD]
      rw [hdl, hgl, List.cons_append, ih a hyu]

theorem dest_path_eq {d : String} {s : String} {tl : List String} (h : tl ≠ []) :
    [d] ++ ((s :: tl).dropLast).tail = d :: tl.dropLast := by
  rw [List.dropLast_cons_of_ne_nil h]
  rfl

theorem full_dest_eq {d : String} {s : String} {tl : List String} (h : tl ≠ []) :
    (d :: tl.dropLast) ++ [(s :: tl).getLastD ""] = d :: tl := by
  have hgl : (s :: tl).getLastD "" = tl.getLastD s := by
    simp [List.getLastD]
    cases tl with
    | nil => exact absurd rfl h
    | cons a u => simp
  rw [hgl]
  have := dropLast_append_getLastD tl s h
  rw [show (d :: tl.dropLast) ++ [tl.getLastD s] = d :: (tl.dropLast ++ [tl.getLastD s]) from rfl,
    this]

theorem compatB_file_not_dir {c : List Nat} {o : Option Node}
    (h : compatB (.file c) o = true) : o ≠ some .dir := by
  intro ho
  rw [ho] at h
  simp [compatB] at h

theorem compatB_dir_not_file {o : Option Node}
    (h : compatB .dir o = true) : ∀ c, o ≠ some (.file c) := by
  intro c ho
  rw [ho] at h
  simp [compatB] at h

theorem conflictFree_findP {fs : FS} {s d : String} (h : conflictFree fs s d)
    {q : Path} {n : Node} (hf : findP fs q = some n) :
    (q.head? = some s → compatB n (findP fs (d :: q.tail)) = true) ∧
    (q.head? = some d → compatB n (findP fs (s :: q.tail)) = true) :=
  h (q, n) (findP_mem hf)

theorem conflictFree_of_findP {fs : FS} {s d : String}
    (hnd : (keysOf fs).Nodup)
    (h : ∀ q n, findP fs q = some n →
      (q.head? = some s → compatB n (findP fs (d :: q.tail)) = true) ∧
      (q.head? = some d → compatB n (findP fs (s :: q.tail)) = true)) :
    conflictFree fs s d :=
  fun e he => h e.1 e.2 (findP_of_mem_nodup hnd (by simpa using he))

theorem leadSegs_cons {dd : String} {x : Path} {q : Path}
    (h : q ∈ leadSegs (dd :: x)) : ∃ j, j ≤ x.length ∧ q = dd :: x.take j := by
  rcases mem_leadSegs_iff.mp h with ⟨i, hi, rfl⟩
  refine ⟨i, by simpa using Nat.lt_succ_iff.mp (by simpa using hi), ?_⟩
  exact List.take_succ_cons

theorem self_mem_leadSegs {p : Path} (h : p ≠ []) : p ∈ leadSegs p :=
  under_mem_leadSegs (under_refl p) h

theorem under_take (p : Path) (k : Nat) : under (p.take k) p := by
  unfold under
  rw [List.length_take]
  apply List.take_eq_take.mpr
  omega

/-- `process_file` on a source file `s :: tl` over a well-formed,
conflict-free filesystem: afterwards the destination path `d :: tl`
holds a file whose fingerprint equals the source fingerprint, missing
ancestors of the destination have been created as directories, and
nothing else changed. -/
theorem process_file_step {s d : String} {fs : FS} {tl : List String} {c : List Nat}
    (hwf : WF fs) (hsd : s ≠ d)
    (hcf : conflictFree fs s d)
    (htl : tl ≠ [])
    (hsf : findP fs (s :: tl) = some (.file c)) :
    ∃ c', contentHash c' = contentHash c ∧
      (∀ p, findP (process_file noRO [d] fs (s :: tl)).1 p =
        if p = d :: tl then some (.file c')
        else if p ∈ leadSegs (d :: tl.dropLast) ∧ findP fs p = none then some .dir
        else findP fs p) ∧
      WF (process_file noRO [d] fs (s :: tl)).1 := by
  have hgh : get_hash fs (s :: tl) = some (contentHash c) := by simp [get_hash, hsf]
  have hdest : [d] ++ ((s :: tl).dropLast).tail = d :: tl.dropLast := dest_path_eq htl
  have hfull : (d :: tl.dropLast) ++ [(s :: tl).getLastD ""] = d :: tl := full_dest_eq htl
  have hsl1 : 1 ≤ tl.length := List.length_pos.mpr htl
  have hsrcanc : ∀ j, j ≤ tl.length - 1 → findP fs (s :: tl.take j) = some .dir := by
    intro j hj
    have heq : s :: tl.take j = (s :: tl).take (j + 1) := List.take_succ_cons.symm
    have hu : under (s :: tl.take j) (s :: tl) := by
      rw [heq]
      exact under_take _ _
    refine WF_under_dir hwf hsf hu (by simp) ?_
    simp only [List.length_cons, List.length_take]
    omega
  have hdstanc : ∀ j, j ≤ tl.length - 1 → ∀ c0,
      findP fs (d :: tl.take j) ≠ some (.file c0) := by
    intro j hj c0 hcon
    have hcomp := (conflictFree_findP hcf (hsrcanc j hj)).1 (by simp)
    exact compatB_dir_not_file hcomp c0 hcon
  have hsegsnf : ∀ q ∈ leadSegs (d :: tl.dropLast), ∀ c0,
      findP fs q ≠ some (.file c0) := by
    intro q hq c0
    rcases leadSegs_cons hq with ⟨j, hj, rfl⟩
    have hj2 : j ≤ tl.length - 1 := by
      rw [List.length_dropLast] at hj
      omega
    have htk : tl.dropLast.take j = tl.take j := by
      rw [List.dropLast_eq_take, List.take_take]
      congr 1
      omega
    rw [htk]
    exact hdstanc j hj2 c0
  have hfulldir : findP fs (d :: tl) ≠ some .dir := by
    have hcomp := (conflictFree_findP hcf hsf).1 (by simp)
    exact compatB_file_not_dir hcomp
  have hfullne : (d :: tl : Path) ≠ [] := by simp
  have hfulllen : 2 ≤ (d :: tl : Path).length := by
    simp only [List.length_cons]
    omega
  have hfulldl : (d :: tl : Path).dropLast = d :: tl.dropLast :=
    List.dropLast_cons_of_ne_nil htl
  have hfullnotseg : (d :: tl : Path) ∉ leadSegs (d :: tl.dropLast) := by
    intro hmem
    rcases leadSegs_cons hmem with ⟨j, hj, hveq⟩
    have := congrArg List.length hveq
    simp only [List.length_cons, List.length_take, List.length_dropLast] at this
    omega
  have hsnotseg : ∀ (q : List String), (s :: q) ∉ leadSegs (d :: tl.dropLast) := by
    intro q hq
    rcases leadSegs_cons hq with ⟨j, _, hveq⟩
    have : s = d := by injection hveq
    exact hsd this
  by_cases hdp : existsB fs ([d] ++ ((s :: tl).dropLast).tail) = true
  · -- destination parent directory already exists
    rw [hdest] at hdp
    have hdpsome : findP fs (d :: tl.dropLast) ≠ none := by
      intro hnone
      rw [existsB, hnone] at hdp
      exact Bool.noConfusion hdp
    have hdpdir : findP fs (d :: tl.dropLast) = some .dir := by
      rcases Option.ne_none_iff_exists'.mp hdpsome with ⟨m, hm⟩
      cases m with
      | dir => exact hm
      | file c0 =>
        have hdt : tl.dropLast = tl.take (tl.length - 1) := List.dropLast_eq_take tl
        rw [hdt] at hm
        exact absurd hm (hdstanc (tl.length - 1) le_rfl c0)
    have hsegspresent : ∀ q ∈ leadSegs (d :: tl.dropLast), findP fs q ≠ none := by
      intro q hq
      by_cases hqe : q = d :: tl.dropLast
      · rw [hqe]
        exact hdpsome
      · obtain ⟨hu, hne⟩ := leadSegs_under hq
        have hlt : q.length < (d :: tl.dropLast).length := by
          rcases Nat.lt_or_ge q.length (d :: tl.dropLast).length with h | h
          · exact h
          · exact absurd (under_eq_of_len hu h) hqe
        rw [WF_under_dir hwf hdpdir hu hne hlt]
        simp
    have hsegelse : ∀ p, (if p ∈ leadSegs (d :: tl.dropLast) ∧ findP fs p = none
        then some Node.dir else findP fs p) = findP fs p := by
      intro p
      rw [if_neg]
      rintro ⟨hmem, hnone⟩
      exact hsegspresent p hmem hnone
    by_cases hfx : existsB fs ((d :: tl.dropLast) ++ [(s :: tl).getLastD ""]) = true
    · -- destination file exists: compare fingerprints
      rw [hfull] at hfx
      have hfxsome : findP fs (d :: tl) ≠ none := by
        intro hnone
        rw [existsB, hnone] at hfx
        exact Bool.noConfusion hfx
      rcases Option.ne_none_iff_exists'.mp hfxsome with ⟨m, hm⟩
      cases m with
      | dir => exact absurd hm hfulldir
      | file c2 =>
      have hgh2 : get_hash fs (d :: tl) = some (contentHash c2) := by
        simp [get_hash, hm]
      by_cases hhash : contentHash c ≠ contentHash c2
      · -- update: delete then copy
        have hrm : osRemove noRO fs (d :: tl) = some (eraseP fs (d :: tl)) :=
          osRemove_noRO hm
        have hchnil : childrenOf fs (d :: tl) = [] := files_no_children hwf hm
        have hcopy : shutilCopy (eraseP fs (d :: tl)) (s :: tl) (d :: tl.dropLast) =
            some (setP (eraseP fs (d :: tl)) (d :: tl) (.file c)) := by
          have h1 : findP (eraseP fs (d :: tl)) (s :: tl) = some (.file c) := by
            rw [findP_eraseP, if_neg (by intro hh; injection hh; exact hsd (by assumption))]
            exact hsf
          have h2 : findP (eraseP fs (d :: tl)) (d :: tl.dropLast) = some .dir := by
            rw [findP_eraseP, if_neg, hdpdir]
            intro hh
            have := congrArg List.length hh
            simp only [List.length_cons, List.length_dropLast] at this
            omega
          have h3 : findP (eraseP fs (d :: tl)) (d :: tl) = none := by
            rw [findP_eraseP, if_pos rfl]
          simp only [shutilCopy, h1, h2, hfull, h3]
        have hresult : (process_file noRO [d] fs (s :: tl)).1 =
            setP (eraseP fs (d :: tl)) (d :: tl) (.file c) := by
          simp only [process_file, hgh]
          rw [hdest, hfull]
          simp [hdp, hfx, hgh2, hhash, hrm, hcopy]
        refine ⟨c, rfl, fun p => ?_, ?_⟩
        · rw [hresult, findP_setP]
          by_cases hpd : p = d :: tl
          · rw [if_pos hpd, if_pos hpd]
          · rw [if_neg hpd, if_neg hpd, hsegelse p, findP_eraseP, if_neg hpd]
        · rw [hresult]
          have hwf2 : WF (eraseP fs (d :: tl)) := WF_eraseP hwf hchnil
          refine WF_setP hwf2 hfullne (fun _ => ?_) ?_
          · rw [hfulldl, findP_eraseP, if_neg, hdpdir]
            intro hh
            have := congrArg List.length hh
            simp only [List.length_cons, List.length_dropLast] at this
            omega
          · intro q hqk hqne hqd
            have hqkfs : q ∈ keysOf fs := (keysOf_eraseP_sublist fs _).subset hqk
            exact (childrenOf_eq_nil_iff.mp hchnil) q hqkfs hqne hqd
      · -- fingerprints equal: no action
        have hceq2 : contentHash c = contentHash c2 := of_not_not hhash
        have hresult : (process_file noRO [d] fs (s :: tl)).1 = fs := by
          simp only [process_file, hgh]
          rw [hdest, hfull]
          simp [hdp, hfx, hgh2, hceq2]
        have hceq : contentHash c2 = contentHash c := hceq2.symm
        refine ⟨c2, hceq, fun p => ?_, by rw [hresult]; exact hwf⟩
        rw [hresult]
        by_cases hpd : p = d :: tl
        · rw [if_pos hpd, hpd, hm]
        · rw [if_neg hpd, hsegelse p]
    · -- destination file missing: plain copy
      rw [hfull] at hfx
      have hfxnone : findP fs (d :: tl) = none := by
        cases hfd : findP fs (d :: tl)
        · rfl
        · exact absurd (by rw [existsB, hfd]; rfl) hfx
      have hfxf : existsB fs (d :: tl) = false := by
        rw [existsB, hfxnone]
        rfl
      have hcopy : shutilCopy fs (s :: tl) (d :: tl.dropLast) =
          some (setP fs (d :: tl) (.file c)) := by
        simp only [shutilCopy, hsf, hdpdir, hfull, hfxnone]
      have hresult : (process_file noRO [d] fs (s :: tl)).1 =
          setP fs (d :: tl) (.file c) := by
        simp only [process_file, hgh]
        rw [hdest, hfull]
        simp [hdp, hfxf, hcopy]
      refine ⟨c, rfl, fun p => ?_, ?_⟩
      · rw [hresult, findP_setP]
        by_cases hpd : p = d :: tl
        · rw [if_pos hpd, if_pos hpd]
        · rw [if_neg hpd, if_neg hpd, hsegelse p]
      · rw [hresult]
        refine WF_setP hwf hfullne (fun _ => by rw [hfulldl]; exact hdpdir) ?_
        exact no_children_of_not_dir hwf hfullne (by rw [hfxnone]; simp)
  · -- destination parent missing: os.makedirs first
    rw [hdest] at hdp
    have hdpn : findP fs (d :: tl.dropLast) = none := by
      cases hfd : findP fs (d :: tl.dropLast)
      · rfl
      · exact absurd (by rw [existsB, hfd]; rfl) hdp
    obtain ⟨g1, hmk, hg1char, hg1wf⟩ := osMakedirs_WF hwf hsegsnf
    have hg1s : ∀ q : List String, findP g1 (s :: q) = findP fs (s :: q) := by
      intro q
      rw [hg1char, if_neg]
      rintro ⟨hmem, _⟩
      exact hsnotseg q hmem
    have hfsfull : findP fs (d :: tl) = none := by
      by_contra hne
      rcases Option.ne_none_iff_exists'.mp hne with ⟨m, hm⟩
      have hpar := WF_parent hwf hm hfulllen
      rw [hfulldl] at hpar
      rw [hpar] at hdpn
      exact Option.noConfusion hdpn
    have hg1full : findP g1 (d :: tl) = none := by
      rw [hg1char, if_neg, hfsfull]
      rintro ⟨hmem, _⟩
      exact hfullnotseg hmem
    have hg1dp : findP g1 (d :: tl.dropLast) = some .dir := by
      rw [hg1char, if_pos ⟨self_mem_leadSegs (by simp), hdpn⟩]
    have hcopy : shutilCopy g1 (s :: tl) (d :: tl.dropLast) =
        some (setP g1 (d :: tl) (.file c)) := by
      have h1 : findP g1 (s :: tl) = some (.file c) := by rw [hg1s]; exact hsf
      simp only [shutilCopy, h1, hg1dp, hfull, hg1full]
    have hg1fx : existsB g1 (d :: tl) = false := by
      rw [existsB, hg1full]
      rfl
    have hdpf : existsB fs (d :: tl.dropLast) = false := by
      rw [existsB, hdpn]
      rfl
    have hresult : (process_file noRO [d] fs (s :: tl)).1 =
        setP g1 (d :: tl) (.file c) := by
      simp only [process_file, hgh]
      rw [hdest, hfull]
      simp [hdpf, hmk, hg1fx, hcopy]
    refine ⟨c, rfl, fun p => ?_, ?_⟩
    · rw [hresult, findP_setP]
      by_cases hpd : p = d :: tl
      · rw [if_pos hpd, if_pos hpd]
      · rw [if_neg hpd, if_neg hpd, hg1char]
    · rw [hresult]
      refine WF_setP hg1wf hfullne (fun _ => by rw [hfulldl]; exact hg1dp) ?_
      exact no_children_of_not_dir hg1wf hfullne (by rw [hg1full]; simp)

/-- `process_empty_folder` on a source directory `s :: tl`: the
counterpart path and its missing ancestors are created as directories;
nothing else changes. -/
theorem process_empty_folder_step {s d : String} {fs : FS} {tl : List String}
    (hwf : WF fs)
    (hcf : conflictFree fs s d)
    (hsdir : findP fs (s :: tl) = some .dir) :
    (∀ p, findP (process_empty_folder [d] fs (s :: tl)).1 p =
      if p ∈ leadSegs (d :: tl) ∧ findP fs p = none then some .dir
      else findP fs p) ∧
    WF (process_empty_folder [d] fs (s :: tl)).1 := by
  have hrh : replaceHead [d] (s :: tl) = d :: tl := rfl
  have hsrcanc : ∀ j, j ≤ tl.length → findP fs (s :: tl.take j) = some .dir := by
    intro j hj
    rcases Nat.lt_or_ge j tl.length with hlt | hge
    · have heq : s :: tl.take j = (s :: tl).take (j + 1) := List.take_succ_cons.symm
      refine WF_under_dir hwf hsdir (by rw [heq]; exact under_take _ _) (by simp) ?_
      simp only [List.length_cons, List.length_take]
      omega
    · have heq : tl.take j = tl := List.take_of_length_le (by omega)
      rw [heq]
      exact hsdir
  have hsegsnf : ∀ q ∈ leadSegs (d :: tl), ∀ c0, findP fs q ≠ some (.file c0) := by
    intro q hq c0 hcon
    rcases leadSegs_cons hq with ⟨j, hj, rfl⟩
    have hcomp := (conflictFree_findP hcf (hsrcanc j hj)).1 (by simp)
    exact compatB_dir_not_file hcomp c0 hcon
  by_cases hex : existsB fs (replaceHead [d] (s :: tl)) = true
  · have hres : (process_empty_folder [d] fs (s :: tl)).1 = fs := by
      simp [process_empty_folder, hex]
    rw [hrh] at hex
    have hsome : findP fs (d :: tl) ≠ none := by
      intro hn
      rw [existsB, hn] at hex
      exact Bool.noConfusion hex
    rcases Option.ne_none_iff_exists'.mp hsome with ⟨m, hm⟩
    refine ⟨fun p => ?_, by rw [hres]; exact hwf⟩
    rw [hres, if_neg]
    rintro ⟨hmem, hnone⟩
    by_cases hqe : p = d :: tl
    · rw [hqe, hm] at hnone
      exact Option.noConfusion hnone
    · obtain ⟨hu, hne⟩ := leadSegs_under hmem
      have hlt : p.length < (d :: tl).length := by
        rcases Nat.lt_or_ge p.length (d :: tl).length with h | h
        · exact h
        · exact absurd (under_eq_of_len hu h) hqe
      rw [WF_under_dir hwf hm hu hne hlt] at hnone
      exact Option.noConfusion hnone
  · obtain ⟨g1, hmk, hchar, hwfg⟩ := osMakedirs_WF hwf hsegsnf
    have hexf : existsB fs (replaceHead [d] (s :: tl)) = false := by
      cases hb : existsB fs (replaceHead [d] (s :: tl))
      · rfl
      · exact absurd hb hex
    have hexf2 : existsB fs (d :: tl) = false := by
      rw [← hrh]
      exact hexf
    have hres : (process_empty_folder [d] fs (s :: tl)).1 = g1 := by
      simp [process_empty_folder, replaceHead, hmk, hexf2]
    exact ⟨fun p => by rw [hres]; exact hchar p, by rw [hres]; exact hwfg⟩

theorem head_cons_shape {q : Path} {a : String} (h : q.head? = some a) :
    q = a :: q.tail := by
  cases q with
  | nil => exact Option.noConfusion h
  | cons x t =>
    injection h with h
    subst h
    rfl

/-- Conflict-freedom survives a `process_file` step. -/
theorem conflictFree_step_file {s d : String} {g g' : FS} {tl : List String}
    {c c' : List Nat}
    (hwf : WF g) (hwf' : WF g') (hsd : s ≠ d)
    (hcf : conflictFree g s d)
    (htl : tl ≠ [])
    (hsf : findP g (s :: tl) = some (.file c))
    (hchar : ∀ p, findP g' p =
      if p = d :: tl then some (.file c')
      else if p ∈ leadSegs (d :: tl.dropLast) ∧ findP g p = none then some .dir
      else findP g p) :
    conflictFree g' s d := by
  have hsnotseg : ∀ (q : List String), (s :: q) ∉ leadSegs (d :: tl.dropLast) := by
    intro q hq
    rcases leadSegs_cons hq with ⟨j, _, hveq⟩
    have : s = d := by injection hveq
    exact hsd this
  have hside : ∀ q : List String, findP g' (s :: q) = findP g (s :: q) := by
    intro q
    rw [hchar, if_neg (by intro hh; injection hh; exact hsd (by assumption)), if_neg]
    rintro ⟨hmem, _⟩
    exact hsnotseg q hmem
  have hsl1 : 1 ≤ tl.length := List.length_pos.mpr htl
  have hsrcanc : ∀ j, j ≤ tl.length - 1 → findP g (s :: tl.take j) = some .dir := by
    intro j hj
    have heq : s :: tl.take j = (s :: tl).take (j + 1) := List.take_succ_cons.symm
    refine WF_under_dir hwf hsf (by rw [heq]; exact under_take _ _) (by simp) ?_
    simp only [List.length_cons, List.length_take]
    omega
  apply conflictFree_of_findP hwf'.1
  intro q n hq
  rw [hchar q] at hq
  by_cases h1 : q = d :: tl
  · rw [if_pos h1] at hq
    have hn : n = .file c' := by
      injection hq with hq
      exact hq.symm
    subst hn
    subst h1
    constructor
    · intro hh
      simp only [List.head?_cons, Option.some.injEq] at hh
      exact absurd hh.symm hsd
    · intro _
      simp only [List.tail_cons]
      rw [hside tl, hsf]
      rfl
  · rw [if_neg h1] at hq
    by_cases h2 : q ∈ leadSegs (d :: tl.dropLast) ∧ findP g q = none
    · rw [if_pos h2] at hq
      have hn : n = .dir := by
        injection hq with hq
        exact hq.symm
      subst hn
      rcases leadSegs_cons h2.1 with ⟨j, hj, rfl⟩
      have hj2 : j ≤ tl.length - 1 := by
        rw [List.length_dropLast] at hj
        omega
      have htk : tl.dropLast.take j = tl.take j := by
        rw [List.dropLast_eq_take, List.take_take]
        congr 1
        omega
      constructor
      · intro hh
        simp only [List.head?_cons, Option.some.injEq] at hh
        exact absurd hh.symm hsd
      · intro _
        have hsrc : findP g' (s :: tl.dropLast.take j) = some .dir := by
          rw [hside, htk]
          exact hsrcanc j hj2
        simp only [List.tail_cons, hsrc]
        rfl
    · rw [if_neg h2] at hq
      have horig := conflictFree_findP hcf hq
      constructor
      · intro hh
        have h1q := horig.1 hh
        have hqshape : q = s :: q.tail := head_cons_shape hh
        rw [hchar (d :: q.tail)]
        by_cases hc1 : (d :: q.tail : Path) = d :: tl
        · rw [if_pos hc1]
          have hteq : q.tail = tl := by injection hc1
          have hqeq : q = s :: tl := by rw [hqshape, hteq]
          rw [hqeq] at hq
          have hn : n = .file c := by
            rw [hsf] at hq
            injection hq with hq
            exact hq.symm
          subst hn
          rfl
        · rw [if_neg hc1]
          by_cases hc2 : (d :: q.tail : Path) ∈ leadSegs (d :: tl.dropLast) ∧
              findP g (d :: q.tail) = none
          · rw [if_pos hc2]
            rcases leadSegs_cons hc2.1 with ⟨j, hj, hveq⟩
            have hteq : q.tail = tl.dropLast.take j := by injection hveq
            have hj2 : j ≤ tl.length - 1 := by
              rw [List.length_dropLast] at hj
              omega
            have htk : tl.dropLast.take j = tl.take j := by
              rw [List.dropLast_eq_take, List.take_take]
              congr 1
              omega
            have hqdir : findP g q = some .dir := by
              rw [hqshape, hteq, htk]
              exact hsrcanc j hj2
            have hn : n = .dir := by
              rw [hqdir] at hq
              injection hq with hq
              exact hq.symm
            subst hn
            rfl
          · rw [if_neg hc2]
            exact h1q
      · intro hh
        have h2q := horig.2 hh
        rw [hchar (s :: q.tail),
          if_neg (by intro hh2; injection hh2; exact hsd (by assumption)),
          if_neg (fun hh2 => hsnotseg q.tail hh2.1)]
        exact h2q

/-- Conflict-freedom survives a `process_empty_folder` step. -/
theorem conflictFree_step_dir {s d : String} {g g' : FS} {tl : List String}
    (hwf : WF g) (hwf' : WF g') (hsd : s ≠ d)
    (hcf : conflictFree g s d)
    (hsdir : findP g (s :: tl) = some .dir)
    (hchar : ∀ p, findP g' p =
      if p ∈ leadSegs (d :: tl) ∧ findP g p = none then some .dir
      else findP g p) :
    conflictFree g' s d := by
  have hsnotseg : ∀ (q : List String), (s :: q) ∉ leadSegs (d :: tl) := by
    intro q hq
    rcases leadSegs_cons hq with ⟨j, _, hveq⟩
    have : s = d := by injection hveq
    exact hsd this
  have hside : ∀ q : List String, findP g' (s :: q) = findP g (s :: q) := by
    intro q
    rw [hchar, if_neg]
    rintro ⟨hmem, _⟩
    exact hsnotseg q hmem
  have hsrcanc : ∀ j, j ≤ tl.length → findP g (s :: tl.take j) = some .dir := by
    intro j hj
    rcases Nat.lt_or_ge j tl.length with hlt | hge
    · have heq : s :: tl.take j = (s :: tl).take (j + 1) := List.take_succ_cons.symm
      refine WF_under_dir hwf hsdir (by rw [heq]; exact under_take _ _) (by simp) ?_
      simp only [List.length_cons, List.length_take]
      omega
    · have heq : tl.take j = tl := List.take_of_length_le (by omega)
      rw [heq]
      exact hsdir
  apply conflictFree_of_findP hwf'.1
  intro q n hq
  rw [hchar q] at hq
  by_cases h2 : q ∈ leadSegs (d :: tl) ∧ findP g q = none
  · rw [if_pos h2] at hq
    have hn : n = .dir := by
      injection hq with hq
      exact hq.symm
    subst hn
    rcases leadSegs_cons h2.1 with ⟨j, hj, rfl⟩
    constructor
    · intro hh
      simp only [List.head?_cons, Option.some.injEq] at hh
      exact absurd hh.symm hsd
    · intro _
      have hsrc : findP g' (s :: tl.take j) = some .dir := by
        rw [hside]
        exact hsrcanc j hj
      simp only [List.tail_cons, hsrc]
      rfl
  · rw [if_neg h2] at hq
    have horig := conflictFree_findP hcf hq
    constructor
    · intro hh
      have h1q := horig.1 hh
      have hqshape : q = s :: q.tail := head_cons_shape hh
      rw [hchar (d :: q.tail)]
      by_cases hc2 : (d :: q.tail : Path) ∈ leadSegs (d :: tl) ∧
          findP g (d :: q.tail) = none
      · rw [if_pos hc2]
        rcases leadSegs_cons hc2.1 with ⟨j, hj, hveq⟩
        have hteq : q.tail = tl.take j := by injection hveq
        have hqdir : findP g q = some .dir := by
          rw [hqshape, hteq]
          exact hsrcanc j hj
        have hn : n = .dir := by
          rw [hqdir] at hq
          injection hq with hq
          exact hq.symm
        subst hn
        rfl
      · rw [if_neg hc2]
        exact h1q
    · intro hh
      have h2q := horig.2 hh
      rw [hchar (s :: q.tail), if_neg (fun hh2 => hsnotseg q.tail hh2.1)]
      exact h2q

/-- Composing one forward step with the processing of the remaining
items. -/
theorem forward_glue {s d : String} {g g1 RES : FS} {tl : List String}
    {rest : List Path}
    (hS1 : ∀ q : List String, findP g1 (s :: q) = findP g (s :: q))
    (hS2 : ∀ p, findP g p = some .dir → findP g1 p = some .dir)
    (hS3 : ∀ p c0, findP g1 p = some (.file c0) →
      findP g p = some (.file c0) ∨ p = d :: tl)
    (hS4 : ∀ p c0, findP g p = some (.file c0) → p ≠ d :: tl →
      findP g1 p = some (.file c0))
    (hS5 : ∀ c, findP g (s :: tl) = some (.file c) →
      ∃ c', findP g1 (d :: tl) = some (.file c') ∧ contentHash c' = contentHash c)
    (hnotrest : (s :: tl : Path) ∉ rest)
    (ihsrc : ∀ q : List String, findP RES (s :: q) = findP g1 (s :: q))
    (ihdir : ∀ p, findP g1 p = some .dir → findP RES p = some .dir)
    (ihback : ∀ p c0, findP RES p = some (.file c0) →
      findP g1 p = some (.file c0) ∨ ∃ tl2, p = d :: tl2 ∧ (s :: tl2 : Path) ∈ rest)
    (ihpres : ∀ p c0, findP g1 p = some (.file c0) →
      (∀ tl2, p = d :: tl2 → (s :: tl2 : Path) ∉ rest) →
      findP RES p = some (.file c0))
    (ihmir : ∀ tl2 c, (s :: tl2 : Path) ∈ rest →
      findP g1 (s :: tl2) = some (.file c) →
      ∃ c', findP RES (d :: tl2) = some (.file c') ∧ contentHash c' = contentHash c) :
    (∀ q : List String, findP RES (s :: q) = findP g (s :: q)) ∧
    (∀ p, findP g p = some .dir → findP RES p = some .dir) ∧
    (∀ p c0, findP RES p = some (.file c0) → findP g p = some (.file c0) ∨
      ∃ tl2, p = d :: tl2 ∧ (s :: tl2 : Path) ∈ (s :: tl) :: rest) ∧
    (∀ p c0, findP g p = some (.file c0) →
      (∀ tl2, p = d :: tl2 → (s :: tl2 : Path) ∉ (s :: tl) :: rest) →
      findP RES p = some (.file c0)) ∧
    (∀ tl2 c, (s :: tl2 : Path) ∈ (s :: tl) :: rest →
      findP g (s :: tl2) = some (.file c) →
      ∃ c', findP RES (d :: tl2) = some (.file c') ∧ contentHash c' = contentHash c) := by
  refine ⟨fun q => (ihsrc q).trans (hS1 q), fun p h => ihdir p (hS2 p h),
    fun p c0 h => ?_, fun p c0 h hcond => ?_, fun tl2 c hm hf => ?_⟩
  · rcases ihback p c0 h with h1 | ⟨tl2, hp, hm⟩
    · rcases hS3 p c0 h1 with h2 | h2
      · exact Or.inl h2
      · exact Or.inr ⟨tl, h2, List.mem_cons_self _ _⟩
    · exact Or.inr ⟨tl2, hp, List.mem_cons_of_mem _ hm⟩
  · have hne : p ≠ d :: tl := fun hp => hcond tl hp (List.mem_cons_self _ _)
    exact ihpres p c0 (hS4 p c0 h hne)
      (fun tl2 hp hm => hcond tl2 hp (List.mem_cons_of_mem _ hm))
  · rcases List.mem_cons.mp hm with heq | hrest
    · have htl2 : tl2 = tl := by injection heq
      subst htl2
      obtain ⟨c', hg1, hceq⟩ := hS5 c hf
      refine ⟨c', ihpres (d :: tl2) c' hg1 ?_, hceq⟩
      intro tl3 hp hm3
      have hte : tl3 = tl2 := by
        injection hp with h1 h2
        exact h2.symm
      subst hte
      exact hnotrest hm3
    · exact ihmir tl2 c hrest (by rw [hS1]; exact hf)

/-- The forward loop over a list of source items below the source root:
the source side is untouched, directories are never lost, every source
file item ends up mirrored with an equal fingerprint, destination files
appear only at counterparts of file items, and well-formedness and
conflict-freedom survive. -/
theorem processItems_ind {s d : String} (hsd : s ≠ d) :
    ∀ (items : List Path) (g : FS),
      WF g →
      conflictFree g s d →
      (∀ i ∈ items, ∃ tl : List String, tl ≠ [] ∧ i = s :: tl) →
      items.Nodup →
      WF (processItemsFrom noRO [d] g items).1 ∧
      conflictFree (processItemsFrom noRO [d] g items).1 s d ∧
      (∀ q : List String, findP (processItemsFrom noRO [d] g items).1 (s :: q) =
        findP g (s :: q)) ∧
      (∀ p, findP g p = some .dir →
        findP (processItemsFrom noRO [d] g items).1 p = some .dir) ∧
      (∀ p c0, findP (processItemsFrom noRO [d] g items).1 p = some (.file c0) →
        findP g p = some (.file c0) ∨
          ∃ tl : List String, p = d :: tl ∧ (s :: tl : Path) ∈ items) ∧
      (∀ p c0, findP g p = some (.file c0) →
        (∀ tl : List String, p = d :: tl → (s :: tl : Path) ∉ items) →
        findP (processItemsFrom noRO [d] g items).1 p = some (.file c0)) ∧
      (∀ (tl : List String) c, (s :: tl : Path) ∈ items →
        findP g (s :: tl) = some (.file c) →
        ∃ c', findP (processItemsFrom noRO [d] g items).1 (d :: tl) =
          some (.file c') ∧ contentHash c' = contentHash c) := by
  intro items
  induction items with
  | nil =>
    intro g hwf hcf _ _
    exact ⟨hwf, hcf, fun q => rfl, fun p h => h, fun p c0 h => Or.inl h,
      fun p c0 h _ => h, fun tl c hm => absurd hm (List.not_mem_nil _)⟩
  | cons i rest ih =>
    intro g hwf hcf hshape hnodup
    obtain ⟨tl, htl, rfl⟩ := hshape i (List.mem_cons_self _ _)
    have hrestshape := fun j hj => hshape j (List.mem_cons_of_mem _ hj)
    have hnotrest : (s :: tl : Path) ∉ rest := (List.nodup_cons.mp hnodup).1
    have hrestnodup : rest.Nodup := (List.nodup_cons.mp hnodup).2
    by_cases hfile : isfileB g (s :: tl) = true
    · rcases isfileB_iff.mp hfile with ⟨c, hsf⟩
      obtain ⟨c', hc', hchar, hwf1⟩ := process_file_step hwf hsd hcf htl hsf
      have hstep : (processItemsFrom noRO [d] g ((s :: tl) :: rest)).1 =
          (processItemsFrom noRO [d] (process_file noRO [d] g (s :: tl)).1 rest).1 := by
        simp [processItemsFrom, hfile]
      have hcf1 : conflictFree (process_file noRO [d] g (s :: tl)).1 s d :=
        conflictFree_step_file hwf hwf1 hsd hcf htl hsf hchar
      have hS1 : ∀ q : List String,
          findP (process_file noRO [d] g (s :: tl)).1 (s :: q) = findP g (s :: q) := by
        intro q
        rw [hchar, if_neg (by intro hh; injection hh; exact hsd (by assumption)), if_neg]
        rintro ⟨hmem, _⟩
        rcases leadSegs_cons hmem with ⟨j, _, hveq⟩
        have : s = d := by injection hveq
        exact hsd this
      have hS2 : ∀ p, findP g p = some .dir →
          findP (process_file noRO [d] g (s :: tl)).1 p = some .dir := by
        intro p hp
        rw [hchar]
        by_cases h1 : p = d :: tl
        · exfalso
          rw [h1] at hp
          have hcomp := (conflictFree_findP hcf hsf).1 (by simp)
          exact compatB_file_not_dir hcomp hp
        · rw [if_neg h1, if_neg, hp]
          rintro ⟨_, hnone⟩
          rw [hp] at hnone
          exact Option.noConfusion hnone
      have hS3 : ∀ p c0,
          findP (process_file noRO [d] g (s :: tl)).1 p = some (.file c0) →
          findP g p = some (.file c0) ∨ p = d :: tl := by
        intro p c0 h
        rw [hchar] at h
        by_cases h1 : p = d :: tl
        · exact Or.inr h1
        · rw [if_neg h1] at h
          by_cases h2 : p ∈ leadSegs (d :: tl.dropLast) ∧ findP g p = none
          · rw [if_pos h2] at h
            exact absurd h (by simp)
          · rw [if_neg h2] at h
            exact Or.inl h
      have hS4 : ∀ p c0, findP g p = some (.file c0) → p ≠ d :: tl →
          findP (process_file noRO [d] g (s :: tl)).1 p = some (.file c0) := by
        intro p c0 hp hne
        rw [hchar, if_neg hne, if_neg]
        · exact hp
        · rintro ⟨_, hnone⟩
          rw [hp] at hnone
          exact Option.noConfusion hnone
      have hS5 : ∀ c2, findP g (s :: tl) = some (.file c2) →
          ∃ c3, findP (process_file noRO [d] g (s :: tl)).1 (d :: tl) =
            some (.file c3) ∧ contentHash c3 = contentHash c2 := by
        intro c2 hc2
        have hcc : c = c2 := by
          have := hsf.symm.trans hc2
          injection this with h
          injection h
        subst hcc
        refine ⟨c', ?_, hc'⟩
        rw [hchar, if_pos rfl]
      obtain ⟨ihwf, ihcf, ihsrc, ihdir, ihback, ihpres, ihmir⟩ :=
        ih (process_file noRO [d] g (s :: tl)).1 hwf1 hcf1 hrestshape hrestnodup
      obtain ⟨gsrc, gdir, gback, gpres, gmir⟩ :=
        forward_glue hS1 hS2 hS3 hS4 hS5 hnotrest ihsrc ihdir ihback ihpres ihmir
      rw [hstep]
      exact ⟨ihwf, ihcf, gsrc, gdir, gback, gpres, gmir⟩
    · by_cases habs : findP g (s :: tl) = none
      · have hls : osListdir g (s :: tl) = none := by
          simp [osListdir, habs]
        have hstep : (processItemsFrom noRO [d] g ((s :: tl) :: rest)).1 =
            (processItemsFrom noRO [d] g rest).1 := by
          simp [processItemsFrom, hfile, hls]
        have hS5 : ∀ c2, findP g (s :: tl) = some (.file c2) →
            ∃ c3, findP g (d :: tl) = some (.file c3) ∧
              contentHash c3 = contentHash c2 := by
          intro c2 hc2
          rw [habs] at hc2
          exact absurd hc2 (by simp)
        obtain ⟨ihwf, ihcf, ihsrc, ihdir, ihback, ihpres, ihmir⟩ :=
          ih g hwf hcf hrestshape hrestnodup
        obtain ⟨gsrc, gdir, gback, gpres, gmir⟩ :=
          forward_glue (fun q => rfl) (fun p h => h) (fun p c0 h => Or.inl h)
            (fun p c0 hp _ => hp) hS5 hnotrest ihsrc ihdir ihback ihpres ihmir
        rw [hstep]
        exact ⟨ihwf, ihcf, gsrc, gdir, gback, gpres, gmir⟩
      · rcases Option.ne_none_iff_exists'.mp habs with ⟨n, hn⟩
        have hdir : findP g (s :: tl) = some .dir := by
          rw [hn, not_isfileB_dir hfile hn]
        have hls : osListdir g (s :: tl) = some (childrenOf g (s :: tl)) := by
          simp [osListdir, hdir]
        have hS5 : ∀ c2, findP g (s :: tl) = some (.file c2) →
            ∃ c3, findP (process_empty_folder [d] g (s :: tl)).1 (d :: tl) =
              some (.file c3) ∧ contentHash c3 = contentHash c2 := by
          intro c2 hc2
          exact absurd (hdir.symm.trans hc2) (by simp)
        by_cases hemp : (childrenOf g (s :: tl)).isEmpty
        · obtain ⟨hchar, hwf1⟩ := process_empty_folder_step hwf hcf hdir
          have hstep : (processItemsFrom noRO [d] g ((s :: tl) :: rest)).1 =
              (processItemsFrom noRO [d]
                (process_empty_folder [d] g (s :: tl)).1 rest).1 := by
            simp [processItemsFrom, hfile, hls, hemp]
          have hcf1 : conflictFree (process_empty_folder [d] g (s :: tl)).1 s d :=
            conflictFree_step_dir hwf hwf1 hsd hcf hdir hchar
          have hS1 : ∀ q : List String,
              findP (process_empty_folder [d] g (s :: tl)).1 (s :: q) =
                findP g (s :: q) := by
            intro q
            rw [hchar, if_neg]
            rintro ⟨hmem, _⟩
            rcases leadSegs_cons hmem with ⟨j, _, hveq⟩
            have : s = d := by injection hveq
            exact hsd this
          have hS2 : ∀ p, findP g p = some .dir →
              findP (process_empty_folder [d] g (s :: tl)).1 p = some .dir := by
            intro p hp
            rw [hchar, if_neg, hp]
            rintro ⟨_, hnone⟩
            rw [hp] at hnone
            exact Option.noConfusion hnone
          have hS3 : ∀ p c0,
              findP (process_empty_folder [d] g (s :: tl)).1 p = some (.file c0) →
              findP g p = some (.file c0) ∨ p = d :: tl := by
            intro p c0 h
            rw [hchar] at h
            by_cases h2 : p ∈ leadSegs (d :: tl) ∧ findP g p = none
            · rw [if_pos h2] at h
              exact absurd h (by simp)
            · rw [if_neg h2] at h
              exact Or.inl h
          have hS4 : ∀ p c0, findP g p = some (.file c0) → p ≠ d :: tl →
              findP (process_empty_folder [d] g (s :: tl)).1 p = some (.file c0) := by
            intro p c0 hp _
            rw [hchar, if_neg]
            · exact hp
            · rintro ⟨_, hnone⟩
              rw [hp] at hnone
              exact Option.noConfusion hnone
          obtain ⟨ihwf, ihcf, ihsrc, ihdir, ihback, ihpres, ihmir⟩ :=
            ih (process_empty_folder [d] g (s :: tl)).1 hwf1 hcf1 hrestshape hrestnodup
          obtain ⟨gsrc, gdir, gback, gpres, gmir⟩ :=
            forward_glue hS1 hS2 hS3 hS4 hS5 hnotrest ihsrc ihdir ihback ihpres ihmir
          rw [hstep]
          exact ⟨ihwf, ihcf, gsrc, gdir, gback, gpres, gmir⟩
        · have hstep : (processItemsFrom noRO [d] g ((s :: tl) :: rest)).1 =
              (processItemsFrom noRO [d] g rest).1 := by
            simp [processItemsFrom, hfile, hls, hemp]
          have hS5' : ∀ c2, findP g (s :: tl) = some (.file c2) →
              ∃ c3, findP g (d :: tl) = some (.file c3) ∧
                contentHash c3 = contentHash c2 := by
            intro c2 hc2
            exact absurd (hdir.symm.trans hc2) (by simp)
          obtain ⟨ihwf, ihcf, ihsrc, ihdir, ihback, ihpres, ihmir⟩ :=
            ih g hwf hcf hrestshape hrestnodup
          obtain ⟨gsrc, gdir, gback, gpres, gmir⟩ :=
            forward_glue (fun q => rfl) (fun p h => h) (fun p c0 h => Or.inl h)
              (fun p c0 hp _ => hp) hS5' hnotrest ihsrc ihdir ihback ihpres ihmir
          rw [hstep]
          exact ⟨ihwf, ihcf, gsrc, gdir, gback, gpres, gmir⟩

/-! ## One full cycle: convergence -/

theorem take_one_shape {p : Path} {s : String} (h : p.take 1 = [s]) :
    ∃ tl, p = s :: tl := by
  cases p with
  | nil => simp at h
  | cons a t =>
    simp only [List.take_succ_cons, List.take_zero, List.cons.injEq] at h
    exact ⟨t, by rw [h.1]⟩

theorem mem_rglobList {fs : FS} {src p : Path} :
    p ∈ rglobList fs src ↔ p ∈ keysOf fs ∧ p ≠ src ∧ p.take src.length = src := by
  simp only [rglobList, List.mem_filter, decide_eq_true_eq]

theorem rglobList_nodup {fs : FS} (h : (keysOf fs).Nodup) (src : Path) :
    (rglobList fs src).Nodup :=
  h.sublist (List.filter_sublist _)

theorem conflictFree_mono {fs g : FS} {s d : String}
    (hnd : (keysOf g).Nodup)
    (hside : ∀ p, findP g p = findP fs p ∨ findP g p = none)
    (hcf : conflictFree fs s d) : conflictFree g s d := by
  apply conflictFree_of_findP hnd
  intro q n hq
  have hfq : findP fs q = some n := by
    rcases hside q with h | h
    · rw [← h]
      exact hq
    · rw [h] at hq
      exact absurd hq (by simp)
  have horig := conflictFree_findP hcf hfq
  constructor
  · intro hh
    rcases hside (d :: q.tail) with h | h
    · rw [h]
      exact horig.1 hh
    · rw [h]
      cases n <;> rfl
  · intro hh
    rcases hside (s :: q.tail) with h | h
    · rw [h]
      exact horig.2 hh
    · rw [h]
      cases n <;> rfl

/-- One synchronization cycle over a well-formed filesystem with
distinct single-component roots and no file/directory kind conflict
between the two trees: afterwards the destination holds a regular file
at exactly the relative paths where the source does, and corresponding
files have equal `get_hash` fingerprints. -/
theorem cycle_converges {s d : String} {fs : FS}
    (hwf : WF fs) (hsd : s ≠ d)
    (hsdir : findP fs [s] = some .dir)
    (hddir : findP fs [d] = some .dir)
    (hcf : conflictFree fs s d) :
    (∀ rel : List String,
      isfileB (cycleFS noRO [s] [d] fs) (d :: rel) =
        isfileB (cycleFS noRO [s] [d] fs) (s :: rel)) ∧
    (∀ rel : List String,
      isfileB (cycleFS noRO [s] [d] fs) (s :: rel) = true →
      get_hash (cycleFS noRO [s] [d] fs) (d :: rel) =
        get_hash (cycleFS noRO [s] [d] fs) (s :: rel)) := by
  obtain ⟨ochar, owf⟩ := @sync_dest_char [s] [d] fs hwf
    (by simp) (by simp) (by simp [hsd]) hddir
  set fs1 := (synchronize_destination_folder noRO [s] [d] fs).1 with hfs1def
  have hnotsunder_s : ∀ q : List String, ¬ sunder [d] (s :: q) := by
    rintro q ⟨hu, _⟩
    unfold under at hu
    simp only [List.length_cons, List.length_nil, List.take_succ_cons,
      List.take_zero, List.cons.injEq] at hu
    exact hsd hu.1
  have hsrc1 : ∀ q : List String, findP fs1 (s :: q) = findP fs (s :: q) := by
    intro q
    rw [ochar, if_neg]
    rintro ⟨hs, _⟩
    exact hnotsunder_s q hs
  have hsdir1 : findP fs1 [s] = some .dir := (hsrc1 []).trans hsdir
  have hddir1 : findP fs1 [d] = some .dir := by
    rw [ochar, if_neg]
    · exact hddir
    · rintro ⟨⟨_, hlen⟩, _⟩
      simp at hlen
  have hside1 : ∀ p, findP fs1 p = findP fs p ∨ findP fs1 p = none := by
    intro p
    rw [ochar]
    by_cases hc : sunder [d] p ∧ orphRem [s] fs p
    · rw [if_pos hc]
      exact Or.inr rfl
    · rw [if_neg hc]
      exact Or.inl rfl
  have hcf1 : conflictFree fs1 s d := conflictFree_mono owf.1 hside1 hcf
  have hitems_shape : ∀ i ∈ rglobList fs1 [s],
      ∃ tl : List String, tl ≠ [] ∧ i = s :: tl := by
    intro i hi
    rcases mem_rglobList.mp hi with ⟨hk, hne, htake⟩
    rcases take_one_shape (by simpa using htake) with ⟨tl, rfl⟩
    refine ⟨tl, ?_, rfl⟩
    intro h0
    rw [h0] at hne
    exact hne rfl
  obtain ⟨fwf, fcf, fsrc, fdir, fback, fpres, fmir⟩ :=
    processItems_ind hsd (rglobList fs1 [s]) fs1 owf hcf1 hitems_shape
      (rglobList_nodup owf.1 [s])
  have hfinal : cycleFS noRO [s] [d] fs =
      (processItemsFrom noRO [d] fs1 (rglobList fs1 [s])).1 := rfl
  rw [hfinal]
  set fs2 := (processItemsFrom noRO [d] fs1 (rglobList fs1 [s])).1 with hfs2def
  have hsrc2 : ∀ q : List String, findP fs2 (s :: q) = findP fs (s :: q) :=
    fun q => (fsrc q).trans (hsrc1 q)
  have hsitem : ∀ (rel : List String) c, findP fs1 (s :: rel) = some (.file c) →
      (s :: rel : Path) ∈ rglobList fs1 [s] := by
    intro rel c hf
    apply mem_rglobList.mpr
    refine ⟨findP_ne_none_iff.mp (by rw [hf]; simp), ?_, rfl⟩
    intro h0
    have hrel : rel = [] := by injection h0
    subst hrel
    rw [hsdir1] at hf
    exact absurd hf (by simp)
  have hBdir : ∀ rel c0, findP fs2 (d :: rel) = some (.file c0) →
      ∃ c1, findP fs2 (s :: rel) = some (.file c1) := by
    intro rel c0 hf
    have hpresent : findP fs2 (s :: rel) ≠ none := by
      rcases fback (d :: rel) c0 hf with h1 | ⟨tl, heq, hm⟩
      · rw [ochar] at h1
        by_cases hc : sunder [d] (d :: rel) ∧ orphRem [s] fs (d :: rel)
        · rw [if_pos hc] at h1
          exact absurd h1 (by simp)
        · rw [if_neg hc] at h1
          have hrelne : rel ≠ [] := by
            intro h0
            subst h0
            rw [hddir] at h1
            exact absurd h1 (by simp)
          have hsun : sunder [d] (d :: rel) := by
            refine ⟨rfl, ?_⟩
            simp only [List.length_cons, List.length_nil]
            have := List.length_pos.mpr hrelne
            omega
          have horph : ¬ orphRem [s] fs (d :: rel) := fun ho => hc ⟨hsun, ho⟩
          have hfileb : isfileB fs (d :: rel) = true := isfileB_iff.mpr ⟨c0, h1⟩
          have hex2 : findP fs (s :: rel) ≠ none := by
            intro hnone
            apply horph
            refine ⟨Or.inl hfileb, ?_⟩
            unfold existsB replaceHead
            simp only [List.tail_cons]
            rw [show ([s] : Path) ++ rel = s :: rel from rfl, hnone]
            rfl
          rw [hsrc2 rel]
          exact hex2
      · have hteq : tl = rel := by
          injection heq with h1 h2
          exact h2.symm
        subst hteq
        rcases mem_rglobList.mp hm with ⟨hk, _, _⟩
        rw [fsrc tl]
        exact findP_ne_none_iff.mpr hk
    rcases Option.ne_none_iff_exists'.mp hpresent with ⟨m, hms⟩
    cases m with
    | file c1 => exact ⟨c1, hms⟩
    | dir =>
      exfalso
      have hcomp := (conflictFree_findP fcf hf).2 (by simp)
      simp only [List.tail_cons] at hcomp
      exact compatB_file_not_dir hcomp hms
  constructor
  · intro rel
    cases hbs : isfileB fs2 (s :: rel) with
    | true =>
      rcases isfileB_iff.mp hbs with ⟨c, hc⟩
      have hc1 : findP fs1 (s :: rel) = some (.file c) := (fsrc rel).symm.trans hc
      have hmem := hsitem rel c hc1
      obtain ⟨c', hc', _⟩ := fmir rel c hmem hc1
      exact isfileB_iff.mpr ⟨c', hc'⟩
    | false =>
      cases hbd : isfileB fs2 (d :: rel) with
      | false => rfl
      | true =>
        exfalso
        rcases isfileB_iff.mp hbd with ⟨c0, hf⟩
        rcases hBdir rel c0 hf with ⟨c1, hs1⟩
        rw [isfileB_iff.mpr ⟨c1, hs1⟩] at hbs
        exact Bool.noConfusion hbs
  · intro rel hbs
    rcases isfileB_iff.mp hbs with ⟨c, hc⟩
    have hc1 : findP fs1 (s :: rel) = some (.file c) := (fsrc rel).symm.trans hc
    have hmem := hsitem rel c hc1
    obtain ⟨c', hc', hceq⟩ := fmir rel c hmem hc1
    simp [get_hash, hc, hc', hceq]

/-! ## Event kinds and traces -/

/-- The events the orphan pass can emit (deletions of destination-only
entries and their error reports). -/
def orphanEventB : Event → Bool
  | .removeFileLog _ => true
  | .removeDirLog _ => true
  | .errorDir _ => true
  | _ => false

/-- The events the forward pass can emit (creations, updates and their
error reports). -/
def forwardEventB : Event → Bool
  | .pathCreateLog _ => true
  | .fileCreateLog _ => true
  | .fileUpdateLog _ => true
  | .dirCreateLog _ => true
  | .errorFile _ => true
  | .errorEmptyDir _ => true
  | .errorItem _ => true
  | _ => false

theorem event_kinds_disjoint (e : Event) :
    ¬ (orphanEventB e = true ∧ forwardEventB e = true) := by
  cases e <;> simp [orphanEventB, forwardEventB]

theorem syncChildLoop_events (ro : Path → Bool) (src : Path)
    (recurse : FS → Path → FS × List Event) (folder : Path)
    (hrec : ∀ g i, ∀ e ∈ (recurse g i).2, orphanEventB e = true) :
    ∀ (items : List Path) (fs : FS),
      ∀ e ∈ (syncChildLoop ro src recurse folder fs items).2, orphanEventB e = true := by
  intro items
  induction items with
  | nil =>
    intro fs e he
    simp [syncChildLoop] at he
  | cons i rest ih =>
    intro fs e he
    unfold syncChildLoop at he
    split at he
    · split at he
      · exact ih fs e he
      · split at he
        · simp only [List.mem_cons] at he
          rcases he with rfl | he
          · rfl
          · exact ih _ e he
        · simp at he
          rcases he with rfl | rfl <;> rfl
    · split at he
      · simp at he
        subst he
        rfl
      · split at he
        · split at he
          · exact ih fs e he
          · split at he
            · simp only [List.mem_cons] at he
              rcases he with rfl | he
              · rfl
              · exact ih _ e he
            · simp at he
              rcases he with rfl | rfl <;> rfl
        · simp only [List.mem_append] at he
          rcases he with he | he
          · exact hrec fs i e he
          · exact ih _ e he

theorem syncDestAux_events (ro : Path → Bool) (src : Path) :
    ∀ (fuel : Nat) (fs : FS) (folder : Path),
      ∀ e ∈ (syncDestAux ro src fuel fs folder).2, orphanEventB e = true := by
  intro fuel
  induction fuel with
  | zero =>
    intro fs folder e he
    simp [syncDestAux] at he
  | succ fuel ihf =>
    intro fs folder e he
    unfold syncDestAux at he
    split at he
    · simp only [List.mem_singleton] at he
      subst he
      rfl
    · exact syncChildLoop_events ro src _ folder
        (fun g i => ihf g i) _ fs e he

theorem sync_dest_events (ro : Path → Bool) (src dst : Path) (fs : FS) :
    ∀ e ∈ (synchronize_destination_folder ro src dst fs).2, orphanEventB e = true :=
  syncDestAux_events ro src (maxKeyLen fs + 1) fs dst

theorem process_file_events (ro : Path → Bool) (dst : Path) (fs : FS) (item : Path) :
    ∀ e ∈ (process_file ro dst fs item).2, forwardEventB e = true := by
  intro e he
  rcases hg : get_hash fs item with _ | h
  · simp [process_file, hg] at he
    subst he; rfl
  · by_cases hdp : existsB fs (dst ++ item.dropLast.tail) = true
    · by_cases hfx : existsB fs (dst ++ (item.dropLast.tail ++ [(item.getLast?).getD ""])) = true
      · rcases hg2 : get_hash fs (dst ++ (item.dropLast.tail ++ [(item.getLast?).getD ""])) with _ | h2
        · simp [process_file, hg, hdp, hfx, hg2] at he
          subst he; rfl
        · by_cases hne : h = h2
          · simp [process_file, hg, hdp, hfx, hg2, hne] at he
          · rcases hrm : osRemove ro fs (dst ++ (item.dropLast.tail ++ [(item.getLast?).getD ""])) with _ | g1
            · simp [process_file, hg, hdp, hfx, hg2, hne, hrm] at he
              rcases he with rfl | rfl <;> rfl
            · rcases hcp : shutilCopy g1 item (dst ++ item.dropLast.tail) with _ | g2
              · simp [process_file, hg, hdp, hfx, hg2, hne, hrm, hcp] at he
                rcases he with rfl | rfl <;> rfl
              · simp [process_file, hg, hdp, hfx, hg2, hne, hrm, hcp] at he
                subst he; rfl
      · rcases hcp : shutilCopy fs item (dst ++ item.dropLast.tail) with _ | g2
        · simp [process_file, hg, hdp, hfx, hcp] at he
          rcases he with rfl | rfl <;> rfl
        · simp [process_file, hg, hdp, hfx, hcp] at he
          subst he; rfl
    · rcases hmk : osMakedirs fs (dst ++ item.dropLast.tail) with _ | fs1
      · simp [process_file, hg, hdp, hmk] at he
        rcases he with rfl | rfl <;> rfl
      · by_cases hfx : existsB fs1 (dst ++ (item.dropLast.tail ++ [(item.getLast?).getD ""])) = true
        · rcases hg2 : get_hash fs1 (dst ++ (item.dropLast.tail ++ [(item.getLast?).getD ""])) with _ | h2
          · simp [process_file, hg, hdp, hmk, hfx, hg2] at he
            rcases he with rfl | rfl <;> rfl
          · by_cases hne : h = h2
            · simp [process_file, hg, hdp, hmk, hfx, hg2, hne] at he
              subst he; rfl
            · rcases hrm : osRemove ro fs1 (dst ++ (item.dropLast.tail ++ [(item.getLast?).getD ""])) with _ | g1
              · simp [process_file, hg, hdp, hmk, hfx, hg2, hne, hrm] at he
                rcases he with rfl | rfl | rfl <;> rfl
              · rcases hcp : shutilCopy g1 item (dst ++ item.dropLast.tail) with _ | g2
                · simp [process_file, hg, hdp, hmk, hfx, hg2, hne, hrm, hcp] at he
                  rcases he with rfl | rfl | rfl <;> rfl
                · simp [process_file, hg, hdp, hmk, hfx, hg2, hne, hrm, hcp] at he
                  rcases he with rfl | rfl <;> rfl
        · rcases hcp : shutilCopy fs1 item (dst ++ item.dropLast.tail) with _ | g2
          · simp [process_file, hg, hdp, hmk, hfx, hcp] at he
            rcases he with rfl | rfl | rfl <;> rfl
          · simp [process_file, hg, hdp, hmk, hfx, hcp] at he
            rcases he with rfl | rfl <;> rfl

theorem process_empty_folder_events (dst : Path) (fs : FS) (item : Path) :
    ∀ e ∈ (process_empty_folder dst fs item).2, forwardEventB e = true := by
  intro e he
  by_cases hex : existsB fs (replaceHead dst item) = true
  · simp [process_empty_folder, hex] at he
  · rcases hmk : osMakedirs fs (replaceHead dst item) with _ | fs1
    · simp [process_empty_folder, hex, hmk] at he
      rcases he with rfl | rfl <;> rfl
    · simp [process_empty_folder, hex, hmk] at he
      subst he; rfl

theorem processItemsFrom_events (ro : Path → Bool) (dst : Path) :
    ∀ (items : List Path) (fs : FS),
      ∀ e ∈ (processItemsFrom ro dst fs items).2, forwardEventB e = true := by
  intro items
  induction items with
  | nil =>
    intro fs e he
    simp [processItemsFrom] at he
  | cons i rest ih =>
    intro fs e he
    unfold processItemsFrom at he
    simp only [List.mem_append] at he
    rcases he with he | he
    · -- event of the head item
      revert he
      split
      · exact fun he => process_file_events ro dst fs i e he
      · split
        · intro he
          simp only [List.mem_singleton] at he
          subst he
          rfl
        · split
          · exact fun he => process_empty_folder_events dst fs i e he
          · intro he
            simp at he
    · exact ih _ e he

/-! ## No-op cycle on a mirrored state

When every destination entry has a source counterpart and every source
entry has an up-to-date destination counterpart, neither pass performs
any filesystem operation or emits any event. -/

theorem syncChildLoop_noop (ro : Path → Bool) (src : Path)
    (recurse : FS → Path → FS × List Event) (folder : Path) (fs : FS) :
    ∀ items : List Path,
      (∀ i ∈ items,
        (isfileB fs i = true → existsB fs (replaceHead src i) = true) ∧
        (isfileB fs i = false →
          ∃ cs, osListdir fs i = some cs ∧
            (cs.isEmpty = true → existsB fs (replaceHead src i) = true) ∧
            (cs.isEmpty = false → recurse fs i = (fs, [])))) →
      syncChildLoop ro src recurse folder fs items = (fs, []) := by
  intro items
  induction items with
  | nil => intro _; rfl
  | cons i rest ih =>
    intro h
    obtain ⟨h1, h2⟩ := h i (List.mem_cons_self i rest)
    have hrest := fun j hj => h j (List.mem_cons_of_mem _ hj)
    unfold syncChildLoop
    by_cases hf : isfileB fs i = true
    · rw [if_pos hf, if_pos (h1 hf)]
      exact ih hrest
    · have hf2 : isfileB fs i = false := by rwa [Bool.not_eq_true] at hf
      rcases h2 hf2 with ⟨cs, hls, hemp, hnemp⟩
      simp only [if_neg hf, hls]
      by_cases he : cs.isEmpty = true
      · rw [if_pos he, if_pos (hemp he)]
        exact ih hrest
      · have he2 : cs.isEmpty = false := by rwa [Bool.not_eq_true] at he
        rw [if_neg he]
        simp [hnemp he2, ih hrest]

theorem syncDestAux_noop (ro : Path → Bool) (src : Path) :
    ∀ (fuel : Nat) (fs : FS) (folder : Path),
      findP fs folder = some .dir →
      (∀ p ∈ keysOf fs, sunder folder p → existsB fs (replaceHead src p) = true) →
      syncDestAux ro src fuel fs folder = (fs, []) := by
  intro fuel
  induction fuel with
  | zero => intro fs folder _ _; rfl
  | succ fuel ih =>
    intro fs folder hdir hcp
    have hls : osListdir fs folder = some (childrenOf fs folder) := by
      simp [osListdir, hdir]
    unfold syncDestAux
    simp only [hls]
    apply syncChildLoop_noop
    intro i hi
    obtain ⟨hk, hne, hdl⟩ := mem_childrenOf_iff.mp hi
    have hsund : sunder folder i := by
      rcases child_shape.mp ⟨hne, hdl⟩ with ⟨a, rfl⟩
      exact ⟨under_append _ _, by simp⟩
    refine ⟨fun _ => hcp i hk hsund, fun hf2 => ?_⟩
    rcases Option.ne_none_iff_exists'.mp (findP_ne_none_iff.mpr hk) with ⟨n, hn⟩
    cases n with
    | file c => simp [isfileB, hn] at hf2
    | dir =>
      refine ⟨childrenOf fs i, by simp [osListdir, hn],
        fun _ => hcp i hk hsund, fun _ => ?_⟩
      apply ih fs i hn
      intro p hp hps
      exact hcp p hp ⟨under_trans hsund.1 hps.1, lt_trans hsund.2 hps.2⟩

theorem process_file_noop (ro : Path → Bool) (dst : Path) (fs : FS) (item : Path)
    {h : String} (hg : get_hash fs item = some h)
    (hdp : existsB fs (dst ++ item.dropLast.tail) = true)
    (hfx : existsB fs ((dst ++ item.dropLast.tail) ++ [item.getLastD ""]) = true)
    (hh2 : get_hash fs ((dst ++ item.dropLast.tail) ++ [item.getLastD ""]) = some h) :
    process_file ro dst fs item = (fs, []) := by
  have hfx2 : existsB fs (dst ++ (item.dropLast.tail ++ [(item.getLast?).getD ""])) = true := by
    rw [← List.getLastD_eq_getLast?, ← List.append_assoc]
    exact hfx
  have hh22 : get_hash fs (dst ++ (item.dropLast.tail ++ [(item.getLast?).getD ""])) = some h := by
    rw [← List.getLastD_eq_getLast?, ← List.append_assoc]
    exact hh2
  simp [process_file, hg, hdp, hfx2, hh22]

theorem process_empty_folder_noop (dst : Path) (fs : FS) (item : Path)
    (hex : existsB fs (replaceHead dst item) = true) :
    process_empty_folder dst fs item = (fs, []) := by
  simp [process_empty_folder, hex]

theorem processItemsFrom_noop (ro : Path → Bool) (dst : Path) :
    ∀ (items : List Path) (fs : FS),
      (∀ i ∈ items,
        (isfileB fs i = true → process_file ro dst fs i = (fs, [])) ∧
        (isfileB fs i = false →
          ∃ cs, osListdir fs i = some cs ∧
            (cs.isEmpty = true → process_empty_folder dst fs i = (fs, [])))) →
      processItemsFrom ro dst fs items = (fs, []) := by
  intro items
  induction items with
  | nil => intro fs _; rfl
  | cons i rest ih =>
    intro fs h
    obtain ⟨h1, h2⟩ := h i (List.mem_cons_self i rest)
    have hrest := fun j hj => h j (List.mem_cons_of_mem _ hj)
    unfold processItemsFrom
    by_cases hf : isfileB fs i = true
    · simp [hf, h1 hf, ih fs hrest]
    · have hf2 : isfileB fs i = false := by rwa [Bool.not_eq_true] at hf
      rcases h2 hf2 with ⟨cs, hls, hemp⟩
      by_cases he : cs.isEmpty = true
      · simp [hf2, hls, he, hemp he, ih fs hrest]
      · have he2 : cs.isEmpty = false := by rwa [Bool.not_eq_true] at he
        simp [hf2, hls, he2, ih fs hrest]

theorem cycle_noop {s d : String} {fs : FS} (ro : Path → Bool)
    (hwf : WF fs)
    (hd : findP fs [d] = some .dir)
    (horph : ∀ p ∈ keysOf fs, sunder [d] p → existsB fs (s :: p.tail) = true)
    (hmir : ∀ p ∈ keysOf fs, p.head? = some s →
      existsB fs (d :: p.tail) = true ∧ get_hash fs (d :: p.tail) = get_hash fs p) :
    perform_synchronization ro [s] [d] fs = (fs, []) := by
  have horph2 : ∀ p ∈ keysOf fs, sunder [d] p →
      existsB fs (replaceHead [s] p) = true := by
    intro p hp hsp
    exact horph p hp hsp
  have h1 : synchronize_destination_folder ro [s] [d] fs = (fs, []) := by
    unfold synchronize_destination_folder
    exact syncDestAux_noop ro [s] _ fs [d] hd horph2
  have h2 : process_source_items ro [s] [d] fs = (fs, []) := by
    unfold process_source_items
    apply processItemsFrom_noop
    intro i hi
    obtain ⟨hk, hneq, htk⟩ := mem_rglobList.mp hi
    obtain ⟨tl, rfl⟩ := take_one_shape (by simpa using htk)
    have htl : tl ≠ [] := by
      intro hnil
      subst hnil
      exact hneq rfl
    constructor
    · intro hf
      rcases isfileB_iff.mp hf with ⟨c, hfc⟩
      have hg : get_hash fs (s :: tl) = some (contentHash c) := by
        simp [get_hash, hfc]
      have hlen2 : 2 ≤ (s :: tl).length := by
        cases tl with
        | nil => exact absurd rfl htl
        | cons a u => simp
      have hpar : findP fs (s :: tl.dropLast) = some .dir := by
        have := WF_parent hwf hfc hlen2
        rwa [List.dropLast_cons_of_ne_nil htl] at this
      have hpark : s :: tl.dropLast ∈ keysOf fs :=
        findP_ne_none_iff.mp (by simp [hpar])
      have hm1 := hmir (s :: tl) hk (by simp)
      have hm2 := hmir (s :: tl.dropLast) hpark (by simp)
      have hdp : existsB fs ([d] ++ (s :: tl).dropLast.tail) = true := by
        rw [dest_path_eq htl]
        exact hm2.1
      have hfull : existsB fs (([d] ++ (s :: tl).dropLast.tail) ++
          [(s :: tl).getLastD ""]) = true := by
        rw [dest_path_eq htl, full_dest_eq htl]
        exact hm1.1
      have hfh : get_hash fs (([d] ++ (s :: tl).dropLast.tail) ++
          [(s :: tl).getLastD ""]) = some (contentHash c) := by
        rw [dest_path_eq htl, full_dest_eq htl]
        exact hm1.2.trans hg
      exact process_file_noop ro [d] fs (s :: tl) hg hdp hfull hfh
    · intro hf2
      rcases Option.ne_none_iff_exists'.mp (findP_ne_none_iff.mpr hk) with ⟨n, hn⟩
      cases n with
      | file c => simp [isfileB, hn] at hf2
      | dir =>
        refine ⟨childrenOf fs (s :: tl), by simp [osListdir, hn], fun hce => ?_⟩
        apply process_empty_folder_noop
        exact (hmir (s :: tl) hk (by simp)).1
  simp [perform_synchronization, h1, h2]

/-! ## The scheduler trace -/

theorem runCycles_char (ro : Path → Bool) (src dst : Path) (interval : Rat) :
    ∀ (n : Nat) (fs : FS),
      runCycles ro src dst interval n fs =
        (iterCycle ro src dst n fs,
         (List.range n).flatMap (fun i =>
           (perform_synchronization ro src dst (iterCycle ro src dst i fs)).2
             ++ [Event.sleepLog interval])) := by
  intro n
  induction n with
  | zero => intro fs; simp [runCycles, iterCycle]
  | succ n ih =>
    intro fs
    simp only [runCycles, ih]
    rw [List.range_succ_eq_map, List.flatMap_cons, List.flatMap_map]
    simp [iterCycle, cycleFS]

theorem perform_events_not_sleep (ro : Path → Bool) (src dst : Path) (fs : FS) :
    ∀ e ∈ (perform_synchronization ro src dst fs).2, ∀ q, e ≠ Event.sleepLog q := by
  intro e he q
  unfold perform_synchronization at he
  simp only [List.mem_append] at he
  rcases he with he | he
  · have h1 := sync_dest_events ro src dst fs e he
    intro hq
    subst hq
    simp [orphanEventB] at h1
  · have h1 := processItemsFrom_events ro dst _ _ e he
    intro hq
    subst hq
    simp [forwardEventB] at h1

/-! ## Fingerprint properties (`get_hash`) -/

theorem foldl_append_eq (L : List (List α)) :
    ∀ acc : List α, L.foldl (fun st chunk => st ++ chunk) acc = acc ++ L.flatten := by
  induction L with
  | nil => intro acc; simp
  | cons a t ih => intro acc; simp [ih, List.append_assoc]

theorem chunkList_flatten (n : Nat) : ∀ l : List α, (chunkList n l).flatten = l
  | [] => by simp [chunkList]
  | a :: as => by
    have ih := chunkList_flatten n (as.drop (n - 1))
    simp only [chunkList, List.flatten_cons, ih, List.cons_append, List.take_append_drop]
termination_by l => l.length
decreasing_by simp only [List.length_cons, List.length_drop]; omega

theorem contentHash_eq_fileHash (c : List Nat) : contentHash c = fileHash c := by
  unfold contentHash
  rw [foldl_append_eq, List.nil_append, chunkList_flatten]

theorem hexChar_mem {n : Nat} (h : n < 16) : hexChar n ∈ hexAlphabet := by
  interval_cases n <;> decide

theorem byteHex_mem (b : Nat) : ∀ ch ∈ byteHex b, ch ∈ hexAlphabet := by
  intro ch hch
  unfold byteHex at hch
  rcases List.mem_cons.mp hch with rfl | hch2
  · exact hexChar_mem (Nat.mod_lt _ (by omega))
  · rcases List.mem_singleton.mp hch2 with rfl
    exact hexChar_mem (Nat.mod_lt _ (by omega))

theorem fileHash_chars (c : List Nat) : ∀ ch ∈ (fileHash c).data, ch ∈ hexAlphabet := by
  intro ch hch
  unfold fileHash hexOfBytes at hch
  rcases List.mem_flatten.mp hch with ⟨l, hl, hchl⟩
  rcases List.mem_map.mp hl with ⟨b, _, rfl⟩
  exact byteHex_mem b ch hchl

/-! ## The non-atomic update step (`os.remove` + `shutil.copy`) -/

theorem replaceFile_outcomes {fs : FS} {item dest_path full : Path} {c c0 : List Nat}
    (hfull : findP fs full = some (.file c0))
    (hsrc : findP fs item = some (.file c))
    (hne : item ≠ full)
    (ht : dest_path ++ [item.getLastD ""] = full) :
    (∀ k, findP (replaceFileStep fs item dest_path full (.failAfter k)).1 full
        = some (.file (c.take k)) ∧
      (replaceFileStep fs item dest_path full (.failAfter k)).2 = true) ∧
    (findP (replaceFileStep fs item dest_path full .failOpen).1 full = none ∧
      (replaceFileStep fs item dest_path full .failOpen).2 = true) ∧
    findP (replaceFileStep fs item dest_path full .ok).1 full = some (.file c) := by
  have hsrc2 : findP (eraseP fs full) item = some (.file c) := by
    rw [findP_eraseP, if_neg hne]
    exact hsrc
  have ht2 : dest_path ++ [(item.getLast?).getD ""] = full := by
    rw [← List.getLastD_eq_getLast?]
    exact ht
  refine ⟨fun k => ?_, ?_, ?_⟩ <;>
    simp [replaceFileStep, osRemove, hfull, shutilCopyCrash, hsrc2, ht2,
      findP_setP, findP_eraseP]

/-! ## Failure isolation of the two passes -/

theorem forward_skip_missing (ro : Path → Bool) (dst : Path) (fs : FS) (i : Path)
    (hni : findP fs i = none) (rest : List Path) :
    processItemsFrom ro dst fs (i :: rest) =
      ((processItemsFrom ro dst fs rest).1,
        Event.errorItem i :: (processItemsFrom ro dst fs rest).2) := by
  simp [processItemsFrom, isfileB, osListdir, hni]

theorem orphan_level_abort (ro : Path → Bool) (src : Path)
    (recurse : FS → Path → FS × List Event) (folder : Path) (fs : FS) (i : Path)
    (rest : List Path) {c : List Nat}
    (hfile : findP fs i = some (.file c))
    (habs : existsB fs (replaceHead src i) = false)
    (hro : ro i = true) :
    syncChildLoop ro src recurse folder fs (i :: rest) =
      (fs, [Event.removeFileLog i, Event.errorDir folder]) := by
  simp [syncChildLoop, isfileB, hfile, habs, osRemove, hro]

/-! ## Structural errors of the orphan pass -/

theorem sync_dest_missing_root (ro : Path → Bool) (src dst : Path) (fs : FS)
    (h : findP fs dst = none) :
    synchronize_destination_folder ro src dst fs = (fs, [Event.errorDir dst]) := by
  unfold synchronize_destination_folder
  simp [syncDestAux, osListdir, h]

/-- Whether an event is the sleep notice of the scheduler loop. -/
def isSleepB (e : Event) : Bool :=
  match e with
  | .sleepLog _ => true
  | _ => false

theorem runCycles_sleep_count (ro : Path → Bool) (src dst : Path) (interval : Rat) :
    ∀ (n : Nat) (fs : FS),
      ((runCycles ro src dst interval n fs).2.countP isSleepB) = n := by
  intro n
  induction n with
  | zero => intro fs; rfl
  | succ n ih =>
    intro fs
    have hz : (perform_synchronization ro src dst fs).2.countP isSleepB = 0 := by
      rw [List.countP_eq_zero]
      intro e he
      have hns := perform_events_not_sleep ro src dst fs e he
      cases e <;> simp [isSleepB]
      exact hns _ rfl
    simp only [runCycles, List.countP_append, List.countP_cons]
    rw [hz, ih]
    simp [isSleepB]

theorem isSleepB_false {e : Event} (h : ∀ q, e ≠ Event.sleepLog q) :
    isSleepB e = false := by
  cases e <;> simp [isSleepB]
  exact h _ rfl

/-! ## Concrete scenarios -/

/-- A type conflict: the relative path `x` is a directory under the
source root and a regular file under the destination root. -/
def fsA : FS :=
  [(["src"], .dir), (["src", "x"], .dir), (["dst"], .dir), (["dst", "x"], .file [9])]

/-- A small mirrored pair of empty roots. -/
def fsW1 : FS := [(["s"], .dir), (["s", "x"], .file [7]), (["d"], .dir)]

/-- A deep orphaned subtree `d/o/a` under the destination root. -/
def fsB : FS :=
  [(["s"], .dir), (["d"], .dir), (["d", "o"], .dir), (["d", "o", "a"], .file [0])]

/-- An orphaned directory with one file under the destination root. -/
def fsC : FS :=
  [(["src"], .dir), (["dst"], .dir), (["dst", "orph"], .dir),
    (["dst", "orph", "a"], .file [0])]

/-- Two empty roots. -/
def fsW5 : FS := [(["s"], .dir), (["d"], .dir)]

/-- A source file and an out-of-date destination copy. -/
def fsD : FS :=
  [(["src"], .dir), (["src", "a"], .file [1, 2, 3]), (["dst"], .dir),
    (["dst", "a"], .file [9])]

/-- Two orphaned destination files. -/
def fsE : FS :=
  [(["src"], .dir), (["dst"], .dir), (["dst", "a"], .file [1]),
    (["dst", "b"], .file [2])]

/-- A read-only oracle protecting exactly `dst/a`. -/
def roE : Path → Bool := fun p => decide (p = ["dst", "a"])

/-- A source tree with one empty subdirectory and no destination root. -/
def fsF : FS := [(["src"], .dir), (["src", "e"], .dir)]

/-- Two files with identical (empty) byte content at different paths. -/
def fsW10 : FS :=
  [(["s"], .dir), (["s", "f"], .file []), (["t"], .dir), (["t", "g"], .file [])]

/-! ## The claims -/

/-- C1 counterexample: from `fsA` (a directory/file type conflict on the
relative path `x`), one cycle changes nothing, so the destination keeps a
regular file at a relative path that is not a file under the source root:
the relative-path file sets differ after the cycle. -/
theorem claim1_counterexample :
    cycleFS noRO ["src"] ["dst"] fsA = fsA ∧
    isfileB (cycleFS noRO ["src"] ["dst"] fsA) ["dst", "x"] = true ∧
    isfileB (cycleFS noRO ["src"] ["dst"] fsA) ["src", "x"] = false := by decide

/-- C1 (amended): when the two roots are distinct single-component
directories of a well-formed snapshot and no relative path is a regular
file in one tree and a directory in the other, one synchronization cycle
equalizes the relative-path file sets of the two roots and gives every
corresponding file pair equal fingerprints. -/
theorem claim1_theorem {s d : String} {fs : FS}
    (hwf : WF fs) (hsd : s ≠ d)
    (hsdir : findP fs [s] = some .dir)
    (hddir : findP fs [d] = some .dir)
    (hcf : conflictFree fs s d) :
    (∀ rel : List String,
      isfileB (cycleFS noRO [s] [d] fs) (d :: rel) =
        isfileB (cycleFS noRO [s] [d] fs) (s :: rel)) ∧
    (∀ rel : List String,
      isfileB (cycleFS noRO [s] [d] fs) (s :: rel) = true →
      get_hash (cycleFS noRO [s] [d] fs) (d :: rel) =
        get_hash (cycleFS noRO [s] [d] fs) (s :: rel)) :=
  cycle_converges hwf hsd hsdir hddir hcf

/-- C1 witness: the amended convergence theorem applies to `fsW1`. -/
theorem claim1_witness :
    (WF fsW1 ∧ "s" ≠ "d" ∧ findP fsW1 ["s"] = some .dir ∧
      findP fsW1 ["d"] = some .dir ∧ conflictFree fsW1 "s" "d") ∧
    ((∀ rel : List String,
      isfileB (cycleFS noRO ["s"] ["d"] fsW1) ("d" :: rel) =
        isfileB (cycleFS noRO ["s"] ["d"] fsW1) ("s" :: rel)) ∧
    (∀ rel : List String,
      isfileB (cycleFS noRO ["s"] ["d"] fsW1) ("s" :: rel) = true →
      get_hash (cycleFS noRO ["s"] ["d"] fsW1) ("d" :: rel) =
        get_hash (cycleFS noRO ["s"] ["d"] fsW1) ("s" :: rel))) :=
  ⟨⟨by decide, by decide, by decide, by decide, by decide⟩,
    claim1_theorem (by decide) (by decide) (by decide) (by decide) (by decide)⟩

/-- C2: the counterpart of an entry path is the other root followed by
everything after the entry path's first component; over all relative
paths this equals the true corresponding path exactly when the replaced
root is a single path component. -/
theorem claim2_theorem (old nr : Path) (hold : old ≠ []) :
    (∀ rel : List String, replaceHead nr (old ++ rel) = nr ++ rel) ↔
      old.length = 1 := by
  constructor
  · intro h
    have h0 : replaceHead nr old = nr := by simpa using h []
    unfold replaceHead at h0
    have hlen := congrArg List.length h0
    simp only [List.length_append] at hlen
    have htl : old.tail = [] := List.eq_nil_of_length_eq_zero (by omega)
    cases old with
    | nil => exact absurd rfl hold
    | cons a t =>
      simp only [List.tail_cons] at htl
      simp [htl]
  · intro h rel
    cases old with
    | nil => exact absurd rfl hold
    | cons a t =>
      have ht : t = [] := by
        simp only [List.length_cons] at h
        exact List.eq_nil_of_length_eq_zero (by omega)
      subst ht
      rfl

/-- C2 witness: the mapping theorem applies to the one-component root
`a` mapped to the root `b`. -/
theorem claim2_witness :
    (["a"] : Path) ≠ [] ∧
    ((∀ rel : List String, replaceHead ["b"] (["a"] ++ rel) = ["b"] ++ rel) ↔
      (["a"] : Path).length = 1) :=
  ⟨by decide, claim2_theorem ["a"] ["b"] (by decide)⟩

/-- C3: a cycle's trace is the orphan-pass events followed by the
forward-pass events, the forward pass runs on the filesystem the
completed orphan pass produced, and the two passes' event kinds are
disjoint, so no forward-pass operation precedes the end of the orphan
pass. -/
theorem claim3_theorem (ro : Path → Bool) (src dst : Path) (fs : FS) :
    (perform_synchronization ro src dst fs).2 =
      (synchronize_destination_folder ro src dst fs).2 ++
        (process_source_items ro src dst
          (synchronize_destination_folder ro src dst fs).1).2 ∧
    (perform_synchronization ro src dst fs).1 =
      (process_source_items ro src dst
        (synchronize_destination_folder ro src dst fs).1).1 ∧
    (∀ e ∈ (synchronize_destination_folder ro src dst fs).2,
      orphanEventB e = true) ∧
    (∀ e ∈ (process_source_items ro src dst
        (synchronize_destination_folder ro src dst fs).1).2,
      forwardEventB e = true) ∧
    ∀ e : Event, ¬(orphanEventB e = true ∧ forwardEventB e = true) := by
  refine ⟨rfl, rfl, sync_dest_events ro src dst fs, ?_, event_kinds_disjoint⟩
  intro e he
  exact processItemsFrom_events ro dst _ _ e he

/-- C4: the orphan pass turns a directory with children into a directory
again (never deletes it as one action); everything it removes is a
strictly-destination path that was an orphaned file or an orphaned
already-childless directory; and on the concrete tree `fsB` the deep
orphaned subtree needs two cycles: after one cycle `d/o` is still a
directory, after two it is gone. -/
theorem claim4_theorem {src dst : Path} {fs : FS}
    (hwf : WF fs) (hsrc : src ≠ []) (hdst : dst ≠ [])
    (hhead : src.head? ≠ dst.head?) (hdir : findP fs dst = some .dir) :
    (∀ p, findP fs p = some .dir → childrenOf fs p ≠ [] →
      findP (synchronize_destination_folder noRO src dst fs).1 p = some .dir) ∧
    (∀ p, findP fs p ≠ none →
      findP (synchronize_destination_folder noRO src dst fs).1 p = none →
      sunder dst p ∧ orphRem src fs p) ∧
    (findP (cycleFS noRO ["s"] ["d"] fsB) ["d", "o"] = some .dir ∧
      findP (iterCycle noRO ["s"] ["d"] 2 fsB) ["d", "o"] = none) := by
  obtain ⟨ochar, _⟩ := sync_dest_char hwf hsrc hdst hhead hdir
  refine ⟨?_, ?_, by decide⟩
  · intro p hp hch
    rw [ochar, if_neg]
    · exact hp
    rintro ⟨hsun, horph⟩
    rcases horph.1 with hfile | ⟨hdir2, hnil⟩
    · rcases isfileB_iff.mp hfile with ⟨c, hc⟩
      rw [hp] at hc
      exact Option.noConfusion hc (fun hcc => Node.noConfusion hcc)
    · exact hch hnil
  · intro p hne hnone
    rw [ochar] at hnone
    by_cases hcond : sunder dst p ∧ orphRem src fs p
    · exact hcond
    · rw [if_neg hcond] at hnone
      exact absurd hnone hne

/-- C4 witness: the orphan-pass conservatism theorem applies to `fsB`. -/
theorem claim4_witness :
    (WF fsB ∧ (["s"] : Path) ≠ [] ∧ (["d"] : Path) ≠ [] ∧
      (["s"] : Path).head? ≠ (["d"] : Path).head? ∧
      findP fsB ["d"] = some .dir) ∧
    ((∀ p, findP fsB p = some .dir → childrenOf fsB p ≠ [] →
      findP (synchronize_destination_folder noRO ["s"] ["d"] fsB).1 p =
        some .dir) ∧
    (∀ p, findP fsB p ≠ none →
      findP (synchronize_destination_folder noRO ["s"] ["d"] fsB).1 p = none →
      sunder ["d"] p ∧ orphRem ["s"] fsB p) ∧
    (findP (cycleFS noRO ["s"] ["d"] fsB) ["d", "o"] = some .dir ∧
      findP (iterCycle noRO ["s"] ["d"] 2 fsB) ["d", "o"] = none)) :=
  ⟨⟨by decide, by decide, by decide, by decide, by decide⟩,
    claim4_theorem (by decide) (by decide) (by decide) (by decide) (by decide)⟩

/-- C5 counterexample: after one cycle on `fsC` the two trees hold no
regular file at all (the cycle has converged), yet the very next cycle
still deletes the now-empty orphaned directory `dst/orph`: its event
list is non-empty and the filesystem changes. -/
theorem claim5_counterexample :
    (∀ p ∈ keysOf (cycleFS noRO ["src"] ["dst"] fsC),
      isfileB (cycleFS noRO ["src"] ["dst"] fsC) p = false) ∧
    (perform_synchronization noRO ["src"] ["dst"]
      (cycleFS noRO ["src"] ["dst"] fsC)).2 =
      [Event.removeDirLog ["dst", "orph"]] ∧
    cycleFS noRO ["src"] ["dst"] (cycleFS noRO ["src"] ["dst"] fsC) ≠
      cycleFS noRO ["src"] ["dst"] fsC := by decide

/-- C5 (amended): a cycle on a fully mirrored state (every
strictly-destination path has an existing source counterpart, and every
source-side path has an existing destination counterpart with equal
fingerprint) performs no filesystem mutation and emits no event at
all. -/
theorem claim5_theorem {s d : String} {fs : FS} (ro : Path → Bool)
    (hwf : WF fs)
    (hd : findP fs [d] = some .dir)
    (horph : ∀ p ∈ keysOf fs, sunder [d] p → existsB fs (s :: p.tail) = true)
    (hmir : ∀ p ∈ keysOf fs, p.head? = some s →
      existsB fs (d :: p.tail) = true ∧
        get_hash fs (d :: p.tail) = get_hash fs p) :
    perform_synchronization ro [s] [d] fs = (fs, []) :=
  cycle_noop ro hwf hd horph hmir

/-- C5 witness: the no-op cycle theorem applies to the mirrored state
`fsW5`. -/
theorem claim5_witness :
    (WF fsW5 ∧ findP fsW5 ["d"] = some .dir ∧
      (∀ p ∈ keysOf fsW5, sunder ["d"] p →
        existsB fsW5 ("s" :: p.tail) = true) ∧
      (∀ p ∈ keysOf fsW5, p.head? = some "s" →
        existsB fsW5 ("d" :: p.tail) = true ∧
          get_hash fsW5 ("d" :: p.tail) = get_hash fsW5 p)) ∧
    perform_synchronization noRO ["s"] ["d"] fsW5 = (fsW5, []) :=
  ⟨⟨by decide, by decide, by decide, by decide⟩,
    claim5_theorem noRO (by decide) (by decide) (by decide) (by decide)⟩

/-- C6 counterexample: on `fsD` the update step (delete, then copy) with
a failure at open leaves the destination path `dst/a` absent, and with a
failure after one byte leaves the truncated file `[1]` visible at the
final destination path. -/
theorem claim6_counterexample :
    findP (replaceFileStep fsD ["src", "a"] ["dst"] ["dst", "a"]
      .failOpen).1 ["dst", "a"] = none ∧
    (replaceFileStep fsD ["src", "a"] ["dst"] ["dst", "a"] .failOpen).2 = true ∧
    findP (replaceFileStep fsD ["src", "a"] ["dst"] ["dst", "a"]
      (.failAfter 1)).1 ["dst", "a"] = some (.file [1]) := by decide

/-- C6 (amended): the update step is not atomic: a copy failing after
`k` bytes leaves the truncated prefix visible at the destination path, a
failure at open leaves the destination path absent, and only a fully
successful copy restores the source content. -/
theorem claim6_theorem {fs : FS} {item dest_path full : Path} {c c0 : List Nat}
    (hfull : findP fs full = some (.file c0))
    (hsrc : findP fs item = some (.file c))
    (hne : item ≠ full)
    (ht : dest_path ++ [item.getLastD ""] = full) :
    (∀ k, findP (replaceFileStep fs item dest_path full (.failAfter k)).1 full
        = some (.file (c.take k)) ∧
      (replaceFileStep fs item dest_path full (.failAfter k)).2 = true) ∧
    (findP (replaceFileStep fs item dest_path full .failOpen).1 full = none ∧
      (replaceFileStep fs item dest_path full .failOpen).2 = true) ∧
    findP (replaceFileStep fs item dest_path full .ok).1 full =
      some (.file c) :=
  replaceFile_outcomes hfull hsrc hne ht

/-- C6 witness: the non-atomic update theorem applies to `fsD`. -/
theorem claim6_witness :
    (findP fsD ["dst", "a"] = some (.file [9]) ∧
      findP fsD ["src", "a"] = some (.file [1, 2, 3]) ∧
      (["src", "a"] : Path) ≠ ["dst", "a"] ∧
      (["dst"] : Path) ++ [(["src", "a"] : Path).getLastD ""] = ["dst", "a"]) ∧
    ((∀ k, findP (replaceFileStep fsD ["src", "a"] ["dst"] ["dst", "a"]
        (.failAfter k)).1 ["dst", "a"] = some (.file ([1, 2, 3].take k)) ∧
      (replaceFileStep fsD ["src", "a"] ["dst"] ["dst", "a"]
        (.failAfter k)).2 = true) ∧
    (findP (replaceFileStep fsD ["src", "a"] ["dst"] ["dst", "a"]
        .failOpen).1 ["dst", "a"] = none ∧
      (replaceFileStep fsD ["src", "a"] ["dst"] ["dst", "a"]
        .failOpen).2 = true) ∧
    findP (replaceFileStep fsD ["src", "a"] ["dst"] ["dst", "a"]
      .ok).1 ["dst", "a"] = some (.file [1, 2, 3])) :=
  ⟨⟨by decide, by decide, by decide, by decide⟩,
    @claim6_theorem fsD ["src", "a"] ["dst"] ["dst", "a"] [1, 2, 3] [9]
      (by decide) (by decide) (by decide) (by decide)⟩

/-- C7 counterexample: on `fsE` with `dst/a` protected, the orphan pass
logs the failure on `dst/a` and then stops: `dst/b` also qualifies for
removal, but the pass ends with the filesystem unchanged and no event
about `dst/b` - the remaining action of the cycle was not attempted. -/
theorem claim7_counterexample :
    synchronize_destination_folder roE ["src"] ["dst"] fsE =
      (fsE, [Event.removeFileLog ["dst", "a"], Event.errorDir ["dst"]]) ∧
    orphRem ["src"] fsE ["dst", "b"] := by decide

/-- C7 (amended): the forward pass is failure-isolated per item (a
vanished source item is logged and the remaining items still run), but
in the orphan pass a failed deletion is logged and abandons the
remaining entries of that directory level. -/
theorem claim7_theorem (ro : Path → Bool) (src dst : Path)
    (recurse : FS → Path → FS × List Event) (folder : Path) (fs : FS)
    (i j : Path) (rest : List Path) :
    (findP fs j = none →
      processItemsFrom ro dst fs (j :: rest) =
        ((processItemsFrom ro dst fs rest).1,
          Event.errorItem j :: (processItemsFrom ro dst fs rest).2)) ∧
    (∀ c : List Nat, findP fs i = some (.file c) →
      existsB fs (replaceHead src i) = false → ro i = true →
      syncChildLoop ro src recurse folder fs (i :: rest) =
        (fs, [Event.removeFileLog i, Event.errorDir folder])) :=
  ⟨fun h => forward_skip_missing ro dst fs j h rest,
    fun _ h1 h2 h3 =>
      orphan_level_abort ro src recurse folder fs i rest h1 h2 h3⟩

/-- C7 witness: the isolation theorem applies to `fsE` with the missing
item `gone` and the protected orphan `dst/a`. -/
theorem claim7_witness :
    processItemsFrom roE ["dst"] fsE [["gone"]] =
      ((processItemsFrom roE ["dst"] fsE []).1,
        Event.errorItem ["gone"] :: (processItemsFrom roE ["dst"] fsE []).2) ∧
    syncChildLoop roE ["src"] (fun g _ => (g, [])) ["dst"] fsE
        [["dst", "a"]] =
      (fsE, [Event.removeFileLog ["dst", "a"], Event.errorDir ["dst"]]) :=
  ⟨(claim7_theorem roE ["src"] ["dst"] (fun g _ => (g, [])) ["dst"] fsE
      ["dst", "a"] ["gone"] []).1 (by decide),
    (claim7_theorem roE ["src"] ["dst"] (fun g _ => (g, [])) ["dst"] fsE
      ["dst", "a"] ["gone"] []).2 [1] (by decide) (by decide) (by decide)⟩

/-- C8 counterexample: with no destination root, the run on `fsF` logs
the structural error, yet the same cycle goes on to create the
destination tree and the scheduler still runs both requested cycles
(two sleep notices): neither the cycle nor the scheduler aborts. -/
theorem claim8_counterexample :
    (runCycles noRO ["src"] ["dst"] 1 2 fsF).2 =
      [Event.errorDir ["dst"], Event.dirCreateLog ["dst", "e"],
        Event.sleepLog 1, Event.sleepLog 1] ∧
    findP (runCycles noRO ["src"] ["dst"] 1 2 fsF).1 ["dst", "e"] =
      some .dir := by decide

/-- C8 (amended): a missing destination root makes the orphan pass log
one error and return the filesystem unchanged; the cycle proceeds with
the forward pass, and the scheduler still performs every requested
cycle (the trace carries one sleep notice per cycle). -/
theorem claim8_theorem (ro : Path → Bool) (src dst : Path) (fs : FS)
    (h : findP fs dst = none) :
    synchronize_destination_folder ro src dst fs = (fs, [Event.errorDir dst]) ∧
    perform_synchronization ro src dst fs =
      ((process_source_items ro src dst fs).1,
        Event.errorDir dst :: (process_source_items ro src dst fs).2) ∧
    ∀ (interval : Rat) (n : Nat),
      ((runCycles ro src dst interval n fs).2.countP isSleepB) = n := by
  have h1 := sync_dest_missing_root ro src dst fs h
  refine ⟨h1, ?_, fun interval n => runCycles_sleep_count ro src dst interval n fs⟩
  simp [perform_synchronization, h1]

/-- C8 witness: the structural-error theorem applies to `fsF`, whose
destination root is missing. -/
theorem claim8_witness :
    findP fsF ["dst"] = none ∧
    (synchronize_destination_folder noRO ["src"] ["dst"] fsF =
      (fsF, [Event.errorDir ["dst"]]) ∧
    perform_synchronization noRO ["src"] ["dst"] fsF =
      ((process_source_items noRO ["src"] ["dst"] fsF).1,
        Event.errorDir ["dst"] ::
          (process_source_items noRO ["src"] ["dst"] fsF).2) ∧
    ∀ (interval : Rat) (n : Nat),
      ((runCycles noRO ["src"] ["dst"] interval n fsF).2.countP isSleepB) = n) :=
  ⟨by decide, claim8_theorem noRO ["src"] ["dst"] fsF (by decide)⟩

/-- C9: the scheduler runs exactly `n` cycles strictly sequentially:
the trace is the concatenation, over `i < n`, of cycle `i`'s events
(computed on the state the previous cycles produced) followed by one
sleep notice for exactly `interval`, and no cycle block contains a
sleep notice. -/
theorem claim9_theorem (ro : Path → Bool) (src dst : Path) (interval : Rat)
    (n : Nat) (fs : FS) :
    runCycles ro src dst interval n fs =
      (iterCycle ro src dst n fs,
       (List.range n).flatMap (fun i =>
         (perform_synchronization ro src dst (iterCycle ro src dst i fs)).2
           ++ [Event.sleepLog interval])) ∧
    ∀ i, ∀ e ∈ (perform_synchronization ro src dst (iterCycle ro src dst i fs)).2,
      isSleepB e = false := by
  refine ⟨runCycles_char ro src dst interval n fs, fun i e he => ?_⟩
  exact isSleepB_false (perform_events_not_sleep ro src dst _ e he)

/-- C10: the fingerprint of a file is the hash of its full content (the
4096-byte chunks reassemble to the content), is determined by the byte
content alone - any two files with equal content, of any size including
empty, and repeated reads of the same file, give the same digest - and
every character of the digest is a lowercase hexadecimal digit. -/
theorem claim10_theorem {fs fs2 : FS} {p p2 : Path} {c : List Nat}
    (h : findP fs p = some (.file c)) (h2 : findP fs2 p2 = some (.file c)) :
    get_hash fs p = some (contentHash c) ∧
    contentHash c = fileHash c ∧
    get_hash fs2 p2 = get_hash fs p ∧
    ∀ ch ∈ (contentHash c).data, ch ∈ hexAlphabet := by
  have hg : get_hash fs p = some (contentHash c) := by simp [get_hash, h]
  have hg2 : get_hash fs2 p2 = some (contentHash c) := by simp [get_hash, h2]
  refine ⟨hg, contentHash_eq_fileHash c, hg2.trans hg.symm, ?_⟩
  rw [contentHash_eq_fileHash]
  exact fileHash_chars c

/-- C10 witness: the fingerprint theorem applies to the two empty files
of `fsW10`. -/
theorem claim10_witness :
    (findP fsW10 ["s", "f"] = some (.file []) ∧
      findP fsW10 ["t", "g"] = some (.file [])) ∧
    (get_hash fsW10 ["s", "f"] = some (contentHash []) ∧
    contentHash ([] : List Nat) = fileHash [] ∧
    get_hash fsW10 ["t", "g"] = get_hash fsW10 ["s", "f"] ∧
    ∀ ch ∈ (contentHash ([] : List Nat)).data, ch ∈ hexAlphabet) :=
  ⟨⟨by decide, by decide⟩, claim10_theorem (by decide) (by decide)⟩

end FolderSync
